import Mathlib

/-
Verification of the routing-trie core of the prefix-matcher program
(src/main.cpp): the bit-cursor struct address_prefix, and the binary
prefix trie routing_trie with its insert and find operations.

Naming note: the C++ struct address_prefix is embedded as address_pfx and
the entry field prefix as pfx; everything else keeps the source's names.
Machine integers are embedded as Nat with explicit reduction modulo the
type width wherever the C++ arithmetic can wrap: the 128-bit address is
reduced modulo 2^128 on shifts, and the 32-bit unsigned prefix_length
wraps to 2^32 - 1 when the post-decrement in pop_bit fires on 0.
-/

/-- Modulus of the 128-bit unsigned address type (uint128_t). -/
def U128 : Nat := 2 ^ 128

/-- Value a 32-bit unsigned field wraps to when 0 is post-decremented. -/
def UMAX32 : Nat := 2 ^ 32 - 1

/-- Embedding of struct address_prefix: a 128-bit address together with the
remaining bit count (the C++ fields address : uint128_t and
prefix_length : unsigned). -/
structure address_pfx where
  address : Nat
  prefix_length : Nat
deriving DecidableEq, Repr

/-- address_prefix::pop_bit.  The C++ body is:
if (prefix_length-- == 0) return nullopt;
bool bit = address & highest_bit; address <<= 1; return bit.
The post-decrement happens even when prefix_length is 0, wrapping the
unsigned field to 2^32 - 1; in that branch no bit is produced and the
address is untouched.  Returns the produced bit (address & highest_bit,
i.e. bit 127) together with the mutated cursor. -/
def address_pfx.pop_bit (p : address_pfx) : Option Bool × address_pfx :=
  if p.prefix_length = 0 then
    (none, { p with prefix_length := UMAX32 })
  else
    (some (p.address.testBit 127),
     { address := (p.address <<< 1) % U128, prefix_length := p.prefix_length - 1 })

/-- routing_trie::node: an optional payload (pop) and two optional
exclusively-owned children, children[0] and children[1]. -/
inductive Node : Type where
  | mk (pop : Option Nat) (child0 : Option Node) (child1 : Option Node) : Node

def Node.pop : Node → Option Nat
  | .mk p _ _ => p

def Node.child0 : Node → Option Node
  | .mk _ c _ => c

def Node.child1 : Node → Option Node
  | .mk _ _ c => c

/-- children[bit]: bit value 0 selects children[0], bit value 1 selects
children[1]. -/
def Node.child (n : Node) (b : Bool) : Option Node :=
  if b then n.child1 else n.child0

/-- Overwrite the payload slot (current->pop = e.pop). -/
def Node.setPop (n : Node) (pp : Nat) : Node :=
  .mk (some pp) n.child0 n.child1

/-- Overwrite one child slot (current->children[bit] = ...). -/
def Node.setChild (n : Node) (b : Bool) (c : Node) : Node :=
  if b then .mk n.pop n.child0 (some c) else .mk n.pop (some c) n.child1

/-- A value-initialised node (std::make_unique<node>()): no payload, no
children. -/
def emptyNode : Node := .mk none none none

/-- struct routing_trie: a root node. -/
structure routing_trie where
  root : Node

/-- The default-constructed trie of parse_data: just a root. -/
def emptyTrie : routing_trie := { root := emptyNode }

/-- struct prefix_and_pop (the field prefix is embedded as pfx). -/
structure prefix_and_pop where
  pfx : address_pfx
  pop : Nat
deriving DecidableEq, Repr

/-- struct pop_and_prefix_length: the result type of routing_trie::find. -/
structure pop_and_prefix_length where
  pop : Nat
  prefix_length : Nat
deriving DecidableEq, Repr

/-- The loop of routing_trie::insert at node level: consume bits, descending
and creating children, then set the payload at the final node; if that node
already holds a payload the C++ process aborts, which is modelled by the
whole insertion returning none. -/
def insertNode (n : Node) (p : address_pfx) (pp : Nat) : Option Node :=
  match h : address_pfx.pop_bit p with
  | (some b, p2) =>
    Option.map (fun c2 => n.setChild b c2)
      (insertNode ((n.child b).getD emptyNode) p2 pp)
  | (none, _) =>
    match n.pop with
    | some _ => none
    | none => some (n.setPop pp)
termination_by p.prefix_length
decreasing_by
  unfold address_pfx.pop_bit at h
  split at h
  · exact absurd h (by simp)
  · cases h
    simp only
    omega

/-- routing_trie::insert.  A duplicate prefix calls std::abort, so the load
dies and no usable trie results; this is modelled by returning none. -/
def routing_trie.insert (t : routing_trie) (e : prefix_and_pop) : Option routing_trie :=
  Option.map (fun r => { root := r }) (insertNode t.root e.pfx e.pop)

/-- Phase A of routing_trie::find: the for loop.  Each iteration consumes a
bit (the loop condition checks the bit first, then current), increments
depth, moves current to the child at the consumed bit (possibly absent) and,
when the new current exists and holds a payload, overwrites best with
(that payload, depth). -/
def phaseA (best : Option pop_and_prefix_length) (cur : Option Node) (depth : Nat)
    (p : address_pfx) : Option pop_and_prefix_length × Option Node × Nat :=
  match h : address_pfx.pop_bit p with
  | (none, _) => (best, cur, depth)
  | (some b, p2) =>
    match cur with
    | none => (best, none, depth)
    | some n =>
      let cur2 := n.child b
      let best2 :=
        match cur2 with
        | some m =>
          match m.pop with
          | some pp => some { pop := pp, prefix_length := depth + 1 }
          | none => best
        | none => best
      phaseA best2 cur2 (depth + 1) p2
termination_by p.prefix_length
decreasing_by
  unfold address_pfx.pop_bit at h
  split at h
  · exact absurd h (by simp)
  · cases h
    simp only
    omega

/-- Phase B of routing_trie::find: the while loop, entered with best unset.
If current holds a payload the loop stops with best = (payload, depth);
otherwise depth is incremented and current moves to children[0] if present,
else to children[1] (which may be absent, ending the loop with best
unset). -/
def phaseB : Node → Nat → Option pop_and_prefix_length
  | .mk (some pp) _ _, depth => some { pop := pp, prefix_length := depth }
  | .mk none (some c) _, depth => phaseB c (depth + 1)
  | .mk none none (some c), depth => phaseB c (depth + 1)
  | .mk none none none, _ => none

/-- routing_trie::find: run Phase A from the root at depth 0 with best
unset; if best was set return it; otherwise, when current is still present,
run the Phase-B fallback descent; otherwise return none (printed as
"no matching entry"). -/
def routing_trie.find (t : routing_trie) (p : address_pfx) : Option pop_and_prefix_length :=
  match phaseA none (some t.root) 0 p with
  | (some b, _, _) => some b
  | (none, some n, depth) => phaseB n depth
  | (none, none, _) => none

/-- The load phase of parse_data: fold routing_trie::insert over the entry
list, starting from the default-constructed trie; an abort at any entry
(modelled by none) makes the whole load fail. -/
def buildTrie (es : List prefix_and_pop) : Option routing_trie :=
  es.foldl (fun ot e => ot.bind (fun t => routing_trie.insert t e)) (some emptyTrie)

/-
List-level counterparts of the bit-cursor-driven functions.  The cursor
yields exactly the top prefix_length bits of the address, most significant
first; the functions below take that bit list directly and are related to
the source-shaped functions by the eq lemmas that follow.  All of them are
structurally recursive, hence evaluable by rfl and decide.
-/

/-- The sequence of bits a cursor will produce: the top prefix_length bits
of the address, most significant first. -/
def bitsAux : Nat → Nat → List Bool
  | 0, _ => []
  | l + 1, a => a.testBit 127 :: bitsAux l ((a <<< 1) % U128)

/-- The bit sequence of an address_prefix value. -/
def address_pfx.bits (p : address_pfx) : List Bool :=
  bitsAux p.prefix_length p.address

/-- Walk from a node along a bit path without creating anything; none when
the path leaves the trie. -/
def seek : Node → List Bool → Option Node
  | n, [] => some n
  | n, b :: bs =>
    match n.child b with
    | some c => seek c bs
    | none => none

/-- The payload stored at the end of a bit path, if the path exists and its
final node holds one. -/
def popAt (n : Node) (bs : List Bool) : Option Nat :=
  match seek n bs with
  | some m => m.pop
  | none => none

/-- List-level version of the insert walk. -/
def insertPath (n : Node) (bs : List Bool) (pp : Nat) : Option Node :=
  match bs with
  | [] =>
    match n.pop with
    | some _ => none
    | none => some (n.setPop pp)
  | b :: rest =>
    Option.map (fun c2 => n.setChild b c2)
      (insertPath ((n.child b).getD emptyNode) rest pp)

/-- List-level version of Phase A. -/
def phaseAL (best : Option pop_and_prefix_length) (cur : Option Node) (depth : Nat) :
    List Bool → Option pop_and_prefix_length × Option Node × Nat
  | [] => (best, cur, depth)
  | b :: bs =>
    match cur with
    | none => (best, none, depth)
    | some n =>
      let cur2 := n.child b
      let best2 :=
        match cur2 with
        | some m =>
          match m.pop with
          | some pp => some { pop := pp, prefix_length := depth + 1 }
          | none => best
        | none => best
      phaseAL best2 cur2 (depth + 1) bs

/-- List-level version of find. -/
def findPath (t : routing_trie) (bs : List Bool) : Option pop_and_prefix_length :=
  match phaseAL none (some t.root) 0 bs with
  | (some b, _, _) => some b
  | (none, some n, depth) => phaseB n depth
  | (none, none, _) => none

/-- List-level version of insert on the whole trie. -/
def insertPathT (t : routing_trie) (e : prefix_and_pop) : Option routing_trie :=
  Option.map (fun r => { root := r }) (insertPath t.root (address_pfx.bits e.pfx) e.pop)

/-- One load step at list level: feed the next entry to insert unless a
previous entry already aborted the load. -/
def insStep (ot : Option routing_trie) (e : prefix_and_pop) : Option routing_trie :=
  ot.bind (fun t => insertPathT t e)

/-- List-level version of the load phase. -/
def buildPath (es : List prefix_and_pop) : Option routing_trie :=
  es.foldl insStep (some emptyTrie)

/-- There is a payload somewhere in the subtree rooted at this node (at the
node itself included). -/
def hasPopIn : Node → Bool
  | .mk (some _) _ _ => true
  | .mk none (some c0) (some c1) => hasPopIn c0 || hasPopIn c1
  | .mk none (some c0) none => hasPopIn c0
  | .mk none none (some c1) => hasPopIn c1
  | .mk none none none => false

def optHasPop : Option Node → Bool
  | some c => hasPopIn c
  | none => false

/-- Every existing child of every node below this one roots a subtree that
contains a payload.  This is the structural invariant the insert walk
maintains: it creates a node only on the way to a payload it then sets. -/
def goodNode : Node → Bool
  | .mk _ (some c0) (some c1) =>
    hasPopIn c0 && goodNode c0 && hasPopIn c1 && goodNode c1
  | .mk _ (some c0) none => hasPopIn c0 && goodNode c0
  | .mk _ none (some c1) => hasPopIn c1 && goodNode c1
  | .mk _ none none => true

def goodChild (c : Option Node) : Bool :=
  match c with
  | some c => hasPopIn c && goodNode c
  | none => true

/-- Height of a node: the number of edges on the longest downward path. -/
def height : Node → Nat
  | .mk _ (some c0) (some c1) => max (height c0) (height c1) + 1
  | .mk _ (some c0) none => height c0 + 1
  | .mk _ none (some c1) => height c1 + 1
  | .mk _ none none => 0

def optHeight : Option Node → Nat
  | some c => height c + 1
  | none => 0

/-- The deepest payload Phase A records while walking a bit list below a
node: some (payload, depth) with depth counted in consumed bits, 1-based. -/
def deepestPop : Node → List Bool → Option (Nat × Nat)
  | _, [] => none
  | n, b :: bs =>
    match n.child b with
    | none => none
    | some c =>
      match deepestPop c bs with
      | some (pp, k) => some (pp, k + 1)
      | none =>
        match c.pop with
        | some pp => some (pp, 1)
        | none => none

/-- Number of node transitions (moves of the current pointer) the Phase-A
loop performs on a bit list: one per loop-body execution. -/
def stepsA : Option Node → List Bool → Nat
  | _, [] => 0
  | none, _ :: _ => 0
  | some n, b :: bs => stepsA (n.child b) bs + 1

/-- Number of node transitions the Phase-B loop performs when started at a
node with best unset: one per descent into a child, plus the final move to
an absent child when the loop runs off the trie without a payload. -/
def stepsB : Node → Nat
  | .mk (some _) _ _ => 0
  | .mk none (some c) _ => stepsB c + 1
  | .mk none none (some c) => stepsB c + 1
  | .mk none none none => 1

/-- Total number of node transitions a call of routing_trie::find performs:
the Phase-A loop iterations plus, when Phase B is entered (best unset and
current present), the Phase-B moves. -/
def findTransitions (t : routing_trie) (p : address_pfx) : Nat :=
  stepsA (some t.root) (address_pfx.bits p) +
    match phaseA none (some t.root) 0 p with
    | (none, some n, _) => stepsB n
    | _ => 0

/-- The deterministic fallback descent of Phase B, as the spec describes it:
from a node, repeatedly step into the 0-child when it exists and otherwise
into the 1-child, stopping at the first node that holds a payload.
zeroDescent n cs m states that the descent starting at n follows exactly
the child path cs and stops at m. -/
inductive zeroDescent : Node → List Bool → Node → Prop where
  | here (n : Node) (pp : Nat) : n.pop = some pp → zeroDescent n [] n
  | left (n c m : Node) (cs : List Bool) : n.pop = none → n.child0 = some c →
      zeroDescent c cs m → zeroDescent n (false :: cs) m
  | right (n c m : Node) (cs : List Bool) : n.pop = none → n.child0 = none →
      n.child1 = some c → zeroDescent c cs m → zeroDescent n (true :: cs) m

example : address_pfx.pop_bit { address := 0, prefix_length := 0 } =
    (none, { address := 0, prefix_length := UMAX32 }) := by rfl

example : buildTrie [] = some emptyTrie := by rfl

theorem pop_bit_zero {p : address_pfx} (h : p.prefix_length = 0) :
    address_pfx.pop_bit p = (none, { p with prefix_length := UMAX32 }) := by
  unfold address_pfx.pop_bit
  simp [h]

theorem pop_bit_succ {p : address_pfx} {l : Nat} (h : p.prefix_length = l + 1) :
    address_pfx.pop_bit p =
      (some (p.address.testBit 127),
       { address := (p.address <<< 1) % U128, prefix_length := l }) := by
  unfold address_pfx.pop_bit
  simp [h]

theorem bits_zero {p : address_pfx} (h : p.prefix_length = 0) :
    address_pfx.bits p = [] := by
  unfold address_pfx.bits
  rw [h]
  rfl

theorem bits_succ {p : address_pfx} {l : Nat} (h : p.prefix_length = l + 1) :
    address_pfx.bits p =
      p.address.testBit 127 ::
        address_pfx.bits { address := (p.address <<< 1) % U128, prefix_length := l } := by
  unfold address_pfx.bits
  rw [h]
  rfl

theorem bits_length (p : address_pfx) : (address_pfx.bits p).length = p.prefix_length := by
  unfold address_pfx.bits
  generalize p.prefix_length = L
  generalize p.address = a
  induction L generalizing a with
  | zero => rfl
  | succ l ih => simp [bitsAux, ih]

theorem insertNode_zero {p : address_pfx} (n : Node) (pp : Nat)
    (h : p.prefix_length = 0) :
    insertNode n p pp =
      match n.pop with
      | some _ => none
      | none => some (n.setPop pp) := by
  rw [insertNode, pop_bit_zero h]

theorem insertNode_succ {p : address_pfx} {l : Nat} (n : Node) (pp : Nat)
    (h : p.prefix_length = l + 1) :
    insertNode n p pp =
      Option.map (fun c2 => n.setChild (p.address.testBit 127) c2)
        (insertNode ((n.child (p.address.testBit 127)).getD emptyNode)
          { address := (p.address <<< 1) % U128, prefix_length := l } pp) := by
  rw [insertNode, pop_bit_succ h]

theorem insertNode_eq_path :
    ∀ (L : Nat) (p : address_pfx), p.prefix_length = L →
      ∀ (n : Node) (pp : Nat),
        insertNode n p pp = insertPath n (address_pfx.bits p) pp := by
  intro L
  induction L with
  | zero =>
    intro p hp n pp
    rw [insertNode_zero n pp hp, bits_zero hp]
    rfl
  | succ l ih =>
    intro p hp n pp
    rw [insertNode_succ n pp hp, bits_succ hp, insertPath]
    rw [ih ⟨(p.address <<< 1) % U128, l⟩ rfl]

theorem insert_eq_path (t : routing_trie) (e : prefix_and_pop) :
    routing_trie.insert t e = insertPathT t e := by
  unfold routing_trie.insert insertPathT
  rw [insertNode_eq_path e.pfx.prefix_length e.pfx rfl]

theorem phaseAL_nil (best : Option pop_and_prefix_length) (cur : Option Node) (depth : Nat) :
    phaseAL best cur depth [] = (best, cur, depth) := rfl

theorem phaseAL_cons_none (best : Option pop_and_prefix_length) (depth : Nat)
    (b : Bool) (bs : List Bool) :
    phaseAL best none depth (b :: bs) = (best, none, depth) := rfl

theorem phaseAL_cons_some (best : Option pop_and_prefix_length) (n : Node) (depth : Nat)
    (b : Bool) (bs : List Bool) :
    phaseAL best (some n) depth (b :: bs) =
      phaseAL
        (match n.child b with
         | some m =>
           match m.pop with
           | some pp => some { pop := pp, prefix_length := depth + 1 }
           | none => best
         | none => best)
        (n.child b) (depth + 1) bs := rfl

theorem phaseA_zero {p : address_pfx} (best : Option pop_and_prefix_length)
    (cur : Option Node) (depth : Nat) (h : p.prefix_length = 0) :
    phaseA best cur depth p = (best, cur, depth) := by
  rw [phaseA, pop_bit_zero h]

theorem phaseA_succ_none {p : address_pfx} {l : Nat} (best : Option pop_and_prefix_length)
    (depth : Nat) (h : p.prefix_length = l + 1) :
    phaseA best none depth p = (best, none, depth) := by
  rw [phaseA, pop_bit_succ h]

theorem phaseA_succ_some {p : address_pfx} {l : Nat} (best : Option pop_and_prefix_length)
    (n : Node) (depth : Nat) (h : p.prefix_length = l + 1) :
    phaseA best (some n) depth p =
      phaseA
        (match n.child (p.address.testBit 127) with
         | some m =>
           match m.pop with
           | some pp => some { pop := pp, prefix_length := depth + 1 }
           | none => best
         | none => best)
        (n.child (p.address.testBit 127)) (depth + 1)
        { address := (p.address <<< 1) % U128, prefix_length := l } := by
  rw [phaseA, pop_bit_succ h]

theorem phaseA_eq_path :
    ∀ (L : Nat) (p : address_pfx), p.prefix_length = L →
      ∀ (best : Option pop_and_prefix_length) (cur : Option Node) (depth : Nat),
        phaseA best cur depth p = phaseAL best cur depth (address_pfx.bits p) := by
  intro L
  induction L with
  | zero =>
    intro p hp best cur depth
    rw [phaseA_zero best cur depth hp, bits_zero hp, phaseAL_nil]
  | succ l ih =>
    intro p hp best cur depth
    rw [bits_succ hp]
    cases cur with
    | none => rw [phaseA_succ_none best depth hp, phaseAL_cons_none]
    | some n =>
      rw [phaseA_succ_some best n depth hp, phaseAL_cons_some]
      rw [ih ⟨(p.address <<< 1) % U128, l⟩ rfl]

theorem find_eq_path (t : routing_trie) (p : address_pfx) :
    routing_trie.find t p = findPath t (address_pfx.bits p) := by
  unfold routing_trie.find findPath
  rw [phaseA_eq_path p.prefix_length p rfl]

theorem build_eq_path (es : List prefix_and_pop) : buildTrie es = buildPath es := by
  unfold buildTrie buildPath
  congr 1
  funext ot e
  cases ot with
  | none => rfl
  | some t => simp [insStep, insert_eq_path]

theorem child_false (n : Node) : n.child false = n.child0 := rfl

theorem child_true (n : Node) : n.child true = n.child1 := rfl

theorem pop_setPop (n : Node) (pp : Nat) : (n.setPop pp).pop = some pp := rfl

theorem child_setPop (n : Node) (pp : Nat) (b : Bool) :
    (n.setPop pp).child b = n.child b := by
  cases b <;> rfl

theorem pop_setChild (n : Node) (b : Bool) (c : Node) :
    (n.setChild b c).pop = n.pop := by
  cases b <;> rfl

theorem child_setChild_same (n : Node) (b : Bool) (c : Node) :
    (n.setChild b c).child b = some c := by
  cases b <;> rfl

theorem child_setChild_other (n : Node) {b b2 : Bool} (c : Node) (h : b ≠ b2) :
    (n.setChild b c).child b2 = n.child b2 := by
  cases b <;> cases b2 <;> first | rfl | exact absurd rfl h

theorem setChild_setChild_same (n : Node) (b : Bool) (c c2 : Node) :
    (n.setChild b c).setChild b c2 = n.setChild b c2 := by
  cases b <;> rfl

theorem setChild_setChild_comm (n : Node) {b b2 : Bool} (c c2 : Node) (h : b ≠ b2) :
    (n.setChild b c).setChild b2 c2 = (n.setChild b2 c2).setChild b c := by
  cases b <;> cases b2 <;> first | rfl | exact absurd rfl h

theorem setPop_setChild (n : Node) (b : Bool) (c : Node) (pp : Nat) :
    (n.setChild b c).setPop pp = (n.setPop pp).setChild b c := by
  cases b <;> rfl

theorem seek_nil (n : Node) : seek n [] = some n := rfl

theorem seek_cons (n : Node) (b : Bool) (bs : List Bool) :
    seek n (b :: bs) =
      match n.child b with
      | some c => seek c bs
      | none => none := rfl

theorem seek_append (n : Node) (as bs : List Bool) :
    seek n (as ++ bs) = (seek n as).bind (fun m => seek m bs) := by
  induction as generalizing n with
  | nil => rfl
  | cons a rest ih =>
    rw [List.cons_append, seek_cons, seek_cons]
    cases n.child a with
    | none => rfl
    | some c => exact ih c

theorem seek_cons_some {n c : Node} {b : Bool} (bs : List Bool) (h : n.child b = some c) :
    seek n (b :: bs) = seek c bs := by
  rw [seek_cons, h]

theorem seek_cons_none {n : Node} {b : Bool} (bs : List Bool) (h : n.child b = none) :
    seek n (b :: bs) = none := by
  rw [seek_cons, h]

theorem popAt_nil (n : Node) : popAt n [] = n.pop := rfl

theorem popAt_cons_some {n c : Node} {b : Bool} (bs : List Bool) (h : n.child b = some c) :
    popAt n (b :: bs) = popAt c bs := by
  unfold popAt
  rw [seek_cons_some bs h]

theorem popAt_cons_none {n : Node} {b : Bool} (bs : List Bool) (h : n.child b = none) :
    popAt n (b :: bs) = none := by
  unfold popAt
  rw [seek_cons_none bs h]

theorem popAt_emptyNode (bs : List Bool) : popAt emptyNode bs = none := by
  cases bs with
  | nil => rfl
  | cons b rest => exact popAt_cons_none rest (by cases b <;> rfl)

theorem hasPopIn_of_child {n c : Node} {b : Bool} (hc : n.child b = some c)
    (h : hasPopIn c = true) : hasPopIn n = true := by
  cases n with
  | mk p c0 c1 =>
    cases b with
    | false =>
      have hx : c0 = some c := hc
      subst hx
      cases p <;> cases c1 <;> simp [hasPopIn, h]
    | true =>
      have hx : c1 = some c := hc
      subst hx
      cases p <;> cases c0 <;> simp [hasPopIn, h]

theorem hasPopIn_of_pop {n : Node} {pp : Nat} (h : n.pop = some pp) :
    hasPopIn n = true := by
  cases n with
  | mk p c0 c1 =>
    have hx : p = some pp := h
    subst hx
    cases c0 <;> cases c1 <;> rfl

theorem popAt_some_hasPopIn {bs : List Bool} :
    ∀ {n : Node} {pp : Nat}, popAt n bs = some pp → hasPopIn n = true := by
  induction bs with
  | nil =>
    intro n pp h
    rw [popAt_nil] at h
    exact hasPopIn_of_pop h
  | cons b rest ih =>
    intro n pp h
    cases hc : n.child b with
    | none => rw [popAt_cons_none rest hc] at h; exact absurd h (by simp)
    | some c =>
      rw [popAt_cons_some rest hc] at h
      exact hasPopIn_of_child hc (ih h)

theorem insertPath_none_iff (bs : List Bool) :
    ∀ (n : Node) (pp : Nat), insertPath n bs pp = none ↔ (popAt n bs).isSome := by
  induction bs with
  | nil =>
    intro n pp
    rw [insertPath, popAt_nil]
    cases n.pop <;> simp
  | cons b rest ih =>
    intro n pp
    rw [insertPath]
    cases hc : n.child b with
    | none =>
      rw [popAt_cons_none rest hc]
      simp only [Option.getD_none, Option.isSome_none]
      constructor
      · intro h
        rw [Option.map_eq_none', ih, popAt_emptyNode] at h
        exact absurd h (by simp)
      · intro h
        exact absurd h (by simp)
    | some c =>
      rw [popAt_cons_some rest hc]
      simp only [Option.getD_some]
      rw [Option.map_eq_none', ih]

theorem insertPath_some_popAt {bs : List Bool} :
    ∀ {n n2 : Node} {pp : Nat}, insertPath n bs pp = some n2 →
      ∀ cs, popAt n2 cs = if cs = bs then some pp else popAt n cs := by
  induction bs with
  | nil =>
    intro n n2 pp h cs
    rw [insertPath] at h
    cases hp : n.pop with
    | some v => rw [hp] at h; exact absurd h (by simp)
    | none =>
      rw [hp] at h
      have hn2 : n2 = n.setPop pp := by
        simp only [Option.some_inj] at h
        exact h.symm
      subst hn2
      cases cs with
      | nil =>
        rw [popAt_nil, pop_setPop]
        rfl
      | cons c rest =>
        have hne : (c :: rest) ≠ ([] : List Bool) := by simp
        rw [if_neg hne]
        cases hcc : (n.setPop pp).child c with
        | none =>
          rw [popAt_cons_none rest hcc, popAt_cons_none rest (by rw [← child_setPop n pp c, hcc])]
        | some cc =>
          rw [popAt_cons_some rest hcc, popAt_cons_some rest (by rw [← child_setPop n pp c, hcc])]
  | cons b rest ih =>
    intro n n2 pp h cs
    rw [insertPath] at h
    cases hrec : insertPath ((n.child b).getD emptyNode) rest pp with
    | none => rw [hrec] at h; exact absurd h (by simp)
    | some c2 =>
      rw [hrec] at h
      have hn2 : n2 = n.setChild b c2 := by
        simp only [Option.map_some', Option.some_inj] at h
        exact h.symm
      subst hn2
      cases cs with
      | nil =>
        have hne : ([] : List Bool) ≠ b :: rest := by simp
        rw [if_neg hne, popAt_nil, popAt_nil, pop_setChild]
      | cons c cs2 =>
        by_cases hcb : c = b
        · subst hcb
          rw [popAt_cons_some cs2 (child_setChild_same n c c2)]
          rw [ih hrec cs2]
          by_cases hcs : cs2 = rest
          · subst hcs
            simp
          · rw [if_neg hcs, if_neg (by simp [hcs])]
            cases hc : n.child c with
            | none =>
              rw [Option.getD_none, popAt_emptyNode, popAt_cons_none cs2 hc]
            | some c0 =>
              rw [Option.getD_some, popAt_cons_some cs2 hc]
        · have hne : (c :: cs2) ≠ b :: rest := by simp [hcb]
          have hco : (n.setChild b c2).child c = n.child c :=
            child_setChild_other n c2 (fun hx => hcb hx.symm)
          rw [if_neg hne]
          cases hc : n.child c with
          | none => rw [popAt_cons_none cs2 (by rw [hco, hc]), popAt_cons_none cs2 hc]
          | some c0 => rw [popAt_cons_some cs2 (by rw [hco, hc]), popAt_cons_some cs2 hc]

example : buildPath [⟨⟨0, 2⟩, 5⟩] =
    some { root := .mk none (some (.mk none (some (.mk (some 5) none none)) none)) none } := by
  rfl

example : findPath { root := emptyNode } [] = none := by rfl

example :
    (buildPath [⟨⟨0, 2⟩, 5⟩]).map (fun t => findPath t (address_pfx.bits ⟨0, 2⟩)) =
      some (some ⟨5, 2⟩) := by rfl

theorem insertPathT_none_iff (t : routing_trie) (e : prefix_and_pop) :
    insertPathT t e = none ↔ (popAt t.root (address_pfx.bits e.pfx)).isSome := by
  unfold insertPathT
  rw [Option.map_eq_none', insertPath_none_iff]

theorem insertPathT_some_popAt {t t2 : routing_trie} {e : prefix_and_pop}
    (h : insertPathT t e = some t2) (cs : List Bool) :
    popAt t2.root cs =
      if cs = address_pfx.bits e.pfx then some e.pop else popAt t.root cs := by
  unfold insertPathT at h
  cases hrec : insertPath t.root (address_pfx.bits e.pfx) e.pop with
  | none => rw [hrec] at h; exact absurd h (by simp)
  | some r =>
    rw [hrec] at h
    have hr : t2.root = r := by
      simp only [Option.map_some', Option.some_inj] at h
      rw [← h]
    rw [hr]
    exact insertPath_some_popAt hrec cs

theorem foldl_insStep_none (es : List prefix_and_pop) :
    es.foldl insStep none = none := by
  induction es with
  | nil => rfl
  | cons e rest ih => rw [List.foldl_cons]; exact ih

theorem foldl_insStep_popAt_stable {es : List prefix_and_pop} :
    ∀ {t1 t : routing_trie}, es.foldl insStep (some t1) = some t →
      ∀ {bs : List Bool} {v : Nat}, popAt t1.root bs = some v → popAt t.root bs = some v := by
  induction es with
  | nil =>
    intro t1 t h bs v hp
    simp only [List.foldl_nil, Option.some_inj] at h
    rw [← h]
    exact hp
  | cons e rest ih =>
    intro t1 t h bs v hp
    rw [List.foldl_cons] at h
    cases hs : insStep (some t1) e with
    | none => rw [hs] at h; exact absurd ((foldl_insStep_none rest).symm.trans h) (by simp)
    | some t2 =>
      rw [hs] at h
      have hins : insertPathT t1 e = some t2 := hs
      have hbs : bs ≠ address_pfx.bits e.pfx := by
        intro hx
        have hdup : (popAt t1.root (address_pfx.bits e.pfx)).isSome := by
          rw [← hx, hp]; rfl
        rw [← insertPathT_none_iff] at hdup
        rw [hdup] at hins
        exact absurd hins (by simp)
      have := insertPathT_some_popAt hins bs
      rw [if_neg hbs] at this
      exact ih h (this.trans hp)

theorem foldl_insStep_mem_popAt {es : List prefix_and_pop} :
    ∀ {t0 t : routing_trie}, es.foldl insStep (some t0) = some t →
      ∀ {e : prefix_and_pop}, e ∈ es →
        popAt t.root (address_pfx.bits e.pfx) = some e.pop := by
  induction es with
  | nil =>
    intro t0 t h e he
    exact absurd he (by simp)
  | cons e2 rest ih =>
    intro t0 t h e he
    rw [List.foldl_cons] at h
    cases hs : insStep (some t0) e2 with
    | none => rw [hs] at h; exact absurd ((foldl_insStep_none rest).symm.trans h) (by simp)
    | some t1 =>
      rw [hs] at h
      have hins : insertPathT t0 e2 = some t1 := hs
      rcases List.mem_cons.mp he with he2 | hrest
      · subst he2
        have hp1 : popAt t1.root (address_pfx.bits e.pfx) = some e.pop := by
          have := insertPathT_some_popAt hins (address_pfx.bits e.pfx)
          rw [if_pos rfl] at this
          exact this
        exact foldl_insStep_popAt_stable h hp1
      · exact ih h hrest

theorem foldl_insStep_popAt_inv {es : List prefix_and_pop} :
    ∀ {t0 t : routing_trie}, es.foldl insStep (some t0) = some t →
      ∀ {bs : List Bool} {v : Nat}, popAt t.root bs = some v →
        (∃ e ∈ es, address_pfx.bits e.pfx = bs ∧ e.pop = v) ∨ popAt t0.root bs = some v := by
  induction es with
  | nil =>
    intro t0 t h bs v hp
    simp only [List.foldl_nil, Option.some_inj] at h
    right
    rw [h]
    exact hp
  | cons e2 rest ih =>
    intro t0 t h bs v hp
    rw [List.foldl_cons] at h
    cases hs : insStep (some t0) e2 with
    | none => rw [hs] at h; exact absurd ((foldl_insStep_none rest).symm.trans h) (by simp)
    | some t1 =>
      rw [hs] at h
      have hins : insertPathT t0 e2 = some t1 := hs
      rcases ih h hp with ⟨e, hmem, hbits, hpop⟩ | hstay
      · exact Or.inl ⟨e, List.mem_cons_of_mem e2 hmem, hbits, hpop⟩
      · have := insertPathT_some_popAt hins bs
        by_cases hbs : bs = address_pfx.bits e2.pfx
        · rw [if_pos hbs] at this
          rw [this] at hstay
          left
          exact ⟨e2, List.mem_cons_self e2 rest, hbs.symm, by
            simp only [Option.some_inj] at hstay
            exact hstay⟩
        · rw [if_neg hbs] at this
          right
          rw [← this]
          exact hstay

theorem buildTrie_mem_popAt {es : List prefix_and_pop} {t : routing_trie}
    (h : buildTrie es = some t) {e : prefix_and_pop} (he : e ∈ es) :
    popAt t.root (address_pfx.bits e.pfx) = some e.pop := by
  rw [build_eq_path] at h
  exact foldl_insStep_mem_popAt h he

theorem buildTrie_popAt_inv {es : List prefix_and_pop} {t : routing_trie}
    (h : buildTrie es = some t) {bs : List Bool} {v : Nat}
    (hp : popAt t.root bs = some v) :
    ∃ e ∈ es, address_pfx.bits e.pfx = bs ∧ e.pop = v := by
  rw [build_eq_path] at h
  rcases foldl_insStep_popAt_inv h hp with hex | hempty
  · exact hex
  · exact absurd ((popAt_emptyNode bs).symm.trans hempty) (by simp)

theorem goodNode_mk (p : Option Nat) (c0 c1 : Option Node) :
    goodNode (.mk p c0 c1) = (goodChild c0 && goodChild c1) := by
  cases c0 <;> cases c1 <;> simp [goodNode, goodChild, Bool.and_assoc]

theorem hasPopIn_mk (p : Option Nat) (c0 c1 : Option Node) :
    hasPopIn (.mk p c0 c1) = (p.isSome || optHasPop c0 || optHasPop c1) := by
  cases p <;> cases c0 <;> cases c1 <;> simp [hasPopIn, optHasPop]

theorem good_child_extract {n c : Node} {b : Bool} (hg : goodNode n = true)
    (hc : n.child b = some c) : hasPopIn c = true ∧ goodNode c = true := by
  cases n with
  | mk p c0 c1 =>
    rw [goodNode_mk] at hg
    rcases Bool.and_eq_true_iff.mp hg with ⟨hg0, hg1⟩
    cases b with
    | false =>
      have hx : c0 = some c := hc
      subst hx
      exact Bool.and_eq_true_iff.mp hg0
    | true =>
      have hx : c1 = some c := hc
      subst hx
      exact Bool.and_eq_true_iff.mp hg1

theorem goodNode_emptyNode : goodNode emptyNode = true := rfl

theorem hasPopIn_setPop (n : Node) (pp : Nat) : hasPopIn (n.setPop pp) = true :=
  hasPopIn_of_pop (pop_setPop n pp)

theorem goodNode_setPop (n : Node) (pp : Nat) : goodNode (n.setPop pp) = goodNode n := by
  cases n with
  | mk p c0 c1 =>
    show goodNode (.mk (some pp) c0 c1) = goodNode (.mk p c0 c1)
    rw [goodNode_mk, goodNode_mk]

theorem hasPopIn_setChild {c : Node} (n : Node) (b : Bool) (hc : hasPopIn c = true) :
    hasPopIn (n.setChild b c) = true :=
  hasPopIn_of_child (child_setChild_same n b c) hc

theorem goodNode_setChild {n c : Node} {b : Bool} (hg : goodNode n = true)
    (hc : hasPopIn c = true) (hgc : goodNode c = true) :
    goodNode (n.setChild b c) = true := by
  cases n with
  | mk p c0 c1 =>
    rw [goodNode_mk] at hg
    rcases Bool.and_eq_true_iff.mp hg with ⟨hg0, hg1⟩
    cases b with
    | false =>
      show goodNode (.mk p (some c) c1) = true
      rw [goodNode_mk, Bool.and_eq_true]
      exact ⟨by simp [goodChild, hc, hgc], hg1⟩
    | true =>
      show goodNode (.mk p c0 (some c)) = true
      rw [goodNode_mk, Bool.and_eq_true]
      exact ⟨hg0, by simp [goodChild, hc, hgc]⟩

theorem insertPath_good (bs : List Bool) :
    ∀ {n n2 : Node} {pp : Nat}, insertPath n bs pp = some n2 →
      hasPopIn n2 = true ∧ (goodNode n = true → goodNode n2 = true) := by
  induction bs with
  | nil =>
    intro n n2 pp h
    rw [insertPath] at h
    cases hp : n.pop with
    | some v => rw [hp] at h; exact absurd h (by simp)
    | none =>
      rw [hp] at h
      have hn2 : n2 = n.setPop pp := by
        simp only [Option.some_inj] at h
        exact h.symm
      subst hn2
      exact ⟨hasPopIn_setPop n pp, fun hg => by rw [goodNode_setPop]; exact hg⟩
  | cons b rest ih =>
    intro n n2 pp h
    rw [insertPath] at h
    cases hrec : insertPath ((n.child b).getD emptyNode) rest pp with
    | none => rw [hrec] at h; exact absurd h (by simp)
    | some c2 =>
      rw [hrec] at h
      have hn2 : n2 = n.setChild b c2 := by
        simp only [Option.map_some', Option.some_inj] at h
        exact h.symm
      subst hn2
      rcases ih hrec with ⟨hpop2, hgood2⟩
      refine ⟨hasPopIn_setChild n b hpop2, fun hg => ?_⟩
      have hgc2 : goodNode c2 = true := by
        apply hgood2
        cases hc : n.child b with
        | none => rw [Option.getD_none]; exact goodNode_emptyNode
        | some c0 =>
          rw [Option.getD_some]
          exact (good_child_extract hg hc).2
      exact goodNode_setChild hg hpop2 hgc2

theorem height_mk (p : Option Nat) (c0 c1 : Option Node) :
    height (.mk p c0 c1) = max (optHeight c0) (optHeight c1) := by
  cases c0 <;> cases c1 <;> simp [height, optHeight, Nat.succ_max_succ]

theorem height_child {n c : Node} {b : Bool} (hc : n.child b = some c) :
    height c < height n := by
  cases n with
  | mk p c0 c1 =>
    rw [height_mk]
    cases b with
    | false =>
      have hx : c0 = some c := hc
      subst hx
      exact Nat.lt_of_lt_of_le (Nat.lt_succ_self _) (Nat.le_max_left _ _)
    | true =>
      have hx : c1 = some c := hc
      subst hx
      exact Nat.lt_of_lt_of_le (Nat.lt_succ_self _) (Nat.le_max_right _ _)

theorem height_setPop (n : Node) (pp : Nat) : height (n.setPop pp) = height n := by
  cases n with
  | mk p c0 c1 =>
    show height (.mk (some pp) c0 c1) = height (.mk p c0 c1)
    rw [height_mk, height_mk]

theorem height_setChild (n c : Node) (b : Bool) :
    height (n.setChild b c) ≤ max (height n) (height c + 1) := by
  cases n with
  | mk p c0 c1 =>
    cases b with
    | false =>
      show height (.mk p (some c) c1) ≤ _
      rw [height_mk, height_mk]
      rw [Nat.max_le]
      constructor
      · exact le_max_right _ _
      · exact le_trans (Nat.le_max_right (optHeight c0) _) (Nat.le_max_left _ _)
    | true =>
      show height (.mk p c0 (some c)) ≤ _
      rw [height_mk, height_mk]
      rw [Nat.max_le]
      constructor
      · exact le_trans (Nat.le_max_left _ (optHeight c1)) (Nat.le_max_left _ _)
      · exact le_max_right _ _

theorem insertPath_height (bs : List Bool) :
    ∀ {n n2 : Node} {pp : Nat}, insertPath n bs pp = some n2 →
      height n2 ≤ max (height n) bs.length := by
  induction bs with
  | nil =>
    intro n n2 pp h
    rw [insertPath] at h
    cases hp : n.pop with
    | some v => rw [hp] at h; exact absurd h (by simp)
    | none =>
      rw [hp] at h
      have hn2 : n2 = n.setPop pp := by
        simp only [Option.some_inj] at h
        exact h.symm
      subst hn2
      rw [height_setPop]
      exact le_max_left _ _
  | cons b rest ih =>
    intro n n2 pp h
    rw [insertPath] at h
    cases hrec : insertPath ((n.child b).getD emptyNode) rest pp with
    | none => rw [hrec] at h; exact absurd h (by simp)
    | some c2 =>
      rw [hrec] at h
      have hn2 : n2 = n.setChild b c2 := by
        simp only [Option.map_some', Option.some_inj] at h
        exact h.symm
      subst hn2
      have h1 : height (n.setChild b c2) ≤ max (height n) (height c2 + 1) :=
        height_setChild n c2 b
      have h2 : height c2 ≤ max (height ((n.child b).getD emptyNode)) rest.length := ih hrec
      have hlen : (b :: rest).length = rest.length + 1 := by simp
      rw [hlen]
      have h4 : height c2 + 1 ≤ max (height n) (rest.length + 1) := by
        rcases le_max_iff.mp h2 with hx | hx
        · cases hc : n.child b with
          | none =>
            rw [hc, Option.getD_none] at hx
            have hz : height emptyNode = 0 := rfl
            rw [hz] at hx
            exact le_max_iff.mpr (Or.inr (by omega))
          | some c0 =>
            rw [hc, Option.getD_some] at hx
            have hlt := height_child hc
            exact le_max_iff.mpr (Or.inl (by omega))
        · exact le_max_iff.mpr (Or.inr (by omega))
      rcases le_max_iff.mp h1 with hx | hx
      · exact le_max_iff.mpr (Or.inl hx)
      · exact le_trans hx h4

theorem insertPathT_good {t t2 : routing_trie} {e : prefix_and_pop}
    (h : insertPathT t e = some t2) :
    hasPopIn t2.root = true ∧ (goodNode t.root = true → goodNode t2.root = true) := by
  unfold insertPathT at h
  cases hrec : insertPath t.root (address_pfx.bits e.pfx) e.pop with
  | none => rw [hrec] at h; exact absurd h (by simp)
  | some r =>
    rw [hrec] at h
    have hr : t2.root = r := by
      simp only [Option.map_some', Option.some_inj] at h
      rw [← h]
    rw [hr]
    exact insertPath_good _ hrec

theorem foldl_insStep_good {es : List prefix_and_pop} :
    ∀ {t0 t : routing_trie}, es.foldl insStep (some t0) = some t →
      goodNode t0.root = true → goodNode t.root = true := by
  induction es with
  | nil =>
    intro t0 t h hg
    simp only [List.foldl_nil, Option.some_inj] at h
    rw [← h]
    exact hg
  | cons e rest ih =>
    intro t0 t h hg
    rw [List.foldl_cons] at h
    cases hs : insStep (some t0) e with
    | none => rw [hs] at h; exact absurd ((foldl_insStep_none rest).symm.trans h) (by simp)
    | some t1 =>
      rw [hs] at h
      exact ih h ((insertPathT_good hs).2 hg)

theorem buildTrie_good {es : List prefix_and_pop} {t : routing_trie}
    (h : buildTrie es = some t) : goodNode t.root = true := by
  rw [build_eq_path] at h
  exact foldl_insStep_good h goodNode_emptyNode

theorem insertPathT_height {t t2 : routing_trie} {e : prefix_and_pop}
    (h : insertPathT t e = some t2) :
    height t2.root ≤ max (height t.root) e.pfx.prefix_length := by
  unfold insertPathT at h
  cases hrec : insertPath t.root (address_pfx.bits e.pfx) e.pop with
  | none => rw [hrec] at h; exact absurd h (by simp)
  | some r =>
    rw [hrec] at h
    have hr : t2.root = r := by
      simp only [Option.map_some', Option.some_inj] at h
      rw [← h]
    rw [hr]
    have := insertPath_height _ hrec
    rw [bits_length] at this
    exact this

theorem foldl_insStep_height {es : List prefix_and_pop} :
    ∀ {t0 t : routing_trie}, es.foldl insStep (some t0) = some t →
      (∀ e ∈ es, e.pfx.prefix_length ≤ 128) →
      height t0.root ≤ 128 → height t.root ≤ 128 := by
  induction es with
  | nil =>
    intro t0 t h hlen h0
    simp only [List.foldl_nil, Option.some_inj] at h
    rw [← h]
    exact h0
  | cons e rest ih =>
    intro t0 t h hlen h0
    rw [List.foldl_cons] at h
    cases hs : insStep (some t0) e with
    | none => rw [hs] at h; exact absurd ((foldl_insStep_none rest).symm.trans h) (by simp)
    | some t1 =>
      rw [hs] at h
      have h1 : height t1.root ≤ 128 := by
        have := insertPathT_height hs
        have he : e.pfx.prefix_length ≤ 128 := hlen e (List.mem_cons_self e rest)
        rcases le_max_iff.mp this with hx | hx
        · omega
        · omega
      exact ih h (fun e2 he2 => hlen e2 (List.mem_cons_of_mem e he2)) h1

theorem buildTrie_height {es : List prefix_and_pop} {t : routing_trie}
    (h : buildTrie es = some t) (hlen : ∀ e ∈ es, e.pfx.prefix_length ≤ 128) :
    height t.root ≤ 128 := by
  rw [build_eq_path] at h
  exact foldl_insStep_height h hlen (by
    have h0 : height emptyTrie.root = 0 := rfl
    omega)

theorem phaseB_pop {n : Node} {pp : Nat} (h : n.pop = some pp) (d : Nat) :
    phaseB n d = some { pop := pp, prefix_length := d } := by
  cases n with
  | mk p c0 c1 =>
    have hx : p = some pp := h
    subst hx
    rfl

theorem phaseB_left {n c : Node} (hp : n.pop = none) (h0 : n.child0 = some c) (d : Nat) :
    phaseB n d = phaseB c (d + 1) := by
  cases n with
  | mk p c0 c1 =>
    have hx : p = none := hp
    subst hx
    have hy : c0 = some c := h0
    subst hy
    rfl

theorem phaseB_right {n c : Node} (hp : n.pop = none) (h0 : n.child0 = none)
    (h1 : n.child1 = some c) (d : Nat) :
    phaseB n d = phaseB c (d + 1) := by
  cases n with
  | mk p c0 c1 =>
    have hx : p = none := hp
    subst hx
    have hy : c0 = none := h0
    subst hy
    have hz : c1 = some c := h1
    subst hz
    rfl

theorem phaseB_dead {n : Node} (hp : n.pop = none) (h0 : n.child0 = none)
    (h1 : n.child1 = none) (d : Nat) :
    phaseB n d = none := by
  cases n with
  | mk p c0 c1 =>
    have hx : p = none := hp
    subst hx
    have hy : c0 = none := h0
    subst hy
    have hz : c1 = none := h1
    subst hz
    rfl

theorem phaseB_zeroDescent_aux :
    ∀ (H : Nat) (n : Node), height n ≤ H → ∀ (d : Nat) (r : pop_and_prefix_length),
      phaseB n d = some r →
      ∃ cs m, zeroDescent n cs m ∧ seek n cs = some m ∧ m.pop = some r.pop ∧
        r.prefix_length = d + cs.length := by
  intro H
  induction H with
  | zero =>
    intro n hh d r h
    cases hp : n.pop with
    | some pp =>
      rw [phaseB_pop hp d] at h
      have hr : r = { pop := pp, prefix_length := d } := by
        simp only [Option.some_inj] at h
        exact h.symm
      subst hr
      exact ⟨[], n, zeroDescent.here n pp hp, seek_nil n, hp, by simp⟩
    | none =>
      exfalso
      cases h0 : n.child0 with
      | some c =>
        have : height c < height n := height_child (b := false) h0
        omega
      | none =>
        cases h1 : n.child1 with
        | some c =>
          have : height c < height n := height_child (b := true) h1
          omega
        | none =>
          rw [phaseB_dead hp h0 h1 d] at h
          exact absurd h (by simp)
  | succ hh ih =>
    intro n hle d r h
    cases hp : n.pop with
    | some pp =>
      rw [phaseB_pop hp d] at h
      have hr : r = { pop := pp, prefix_length := d } := by
        simp only [Option.some_inj] at h
        exact h.symm
      subst hr
      exact ⟨[], n, zeroDescent.here n pp hp, seek_nil n, hp, by simp⟩
    | none =>
      cases h0 : n.child0 with
      | some c =>
        rw [phaseB_left hp h0 d] at h
        have hch : height c ≤ hh := by
          have : height c < height n := height_child (b := false) h0
          omega
        rcases ih c hch (d + 1) r h with ⟨cs, m, hzd, hseek, hpop, hdep⟩
        refine ⟨false :: cs, m, zeroDescent.left n c m cs hp h0 hzd, ?_, hpop, ?_⟩
        · rw [seek_cons_some cs (show n.child false = some c from h0)]
          exact hseek
        · simp [hdep]
          omega
      | none =>
        cases h1 : n.child1 with
        | some c =>
          rw [phaseB_right hp h0 h1 d] at h
          have hch : height c ≤ hh := by
            have : height c < height n := height_child (b := true) h1
            omega
          rcases ih c hch (d + 1) r h with ⟨cs, m, hzd, hseek, hpop, hdep⟩
          refine ⟨true :: cs, m, zeroDescent.right n c m cs hp h0 h1 hzd, ?_, hpop, ?_⟩
          · rw [seek_cons_some cs (show n.child true = some c from h1)]
            exact hseek
          · simp [hdep]
            omega
        | none =>
          rw [phaseB_dead hp h0 h1 d] at h
          exact absurd h (by simp)

theorem phaseB_zeroDescent {n : Node} {d : Nat} {r : pop_and_prefix_length}
    (h : phaseB n d = some r) :
    ∃ cs m, zeroDescent n cs m ∧ seek n cs = some m ∧ m.pop = some r.pop ∧
      r.prefix_length = d + cs.length :=
  phaseB_zeroDescent_aux (height n) n (le_refl _) d r h

theorem phaseB_some_of_good_aux :
    ∀ (H : Nat) (n : Node), height n ≤ H → goodNode n = true → hasPopIn n = true →
      ∀ (d : Nat), ∃ r, phaseB n d = some r := by
  intro H
  induction H with
  | zero =>
    intro n hh hg hpop d
    cases hp : n.pop with
    | some pp => exact ⟨_, phaseB_pop hp d⟩
    | none =>
      exfalso
      cases n with
      | mk p c0 c1 =>
        have hx : p = none := hp
        subst hx
        cases c0 with
        | some c =>
          have hlt : height c < height (Node.mk none (some c) c1) :=
            height_child (b := false) rfl
          omega
        | none =>
          cases c1 with
          | some c =>
            have hlt : height c < height (Node.mk none none (some c)) :=
              height_child (b := true) rfl
            omega
          | none => exact absurd hpop (by simp [hasPopIn])
  | succ hh ih =>
    intro n hle hg hpop d
    cases hp : n.pop with
    | some pp => exact ⟨_, phaseB_pop hp d⟩
    | none =>
      cases h0 : n.child0 with
      | some c =>
        have hcc : n.child false = some c := h0
        rcases good_child_extract hg hcc with ⟨hcp, hcg⟩
        have hch : height c ≤ hh := by
          have := height_child hcc
          omega
        rcases ih c hch hcg hcp (d + 1) with ⟨r, hr⟩
        exact ⟨r, by rw [phaseB_left hp h0 d]; exact hr⟩
      | none =>
        cases h1 : n.child1 with
        | some c =>
          have hcc : n.child true = some c := h1
          rcases good_child_extract hg hcc with ⟨hcp, hcg⟩
          have hch : height c ≤ hh := by
            have := height_child hcc
            omega
          rcases ih c hch hcg hcp (d + 1) with ⟨r, hr⟩
          exact ⟨r, by rw [phaseB_right hp h0 h1 d]; exact hr⟩
        | none =>
          exfalso
          cases n with
          | mk p cc0 cc1 =>
            have hx : p = none := hp
            have hy : cc0 = none := h0
            have hz : cc1 = none := h1
            subst hx
            subst hy
            subst hz
            exact absurd hpop (by simp [hasPopIn])

theorem phaseB_some_of_good {n : Node} (hg : goodNode n = true) (hpop : hasPopIn n = true)
    (d : Nat) : ∃ r, phaseB n d = some r :=
  phaseB_some_of_good_aux (height n) n (le_refl _) hg hpop d

theorem zeroDescent_unique {n : Node} {cs : List Bool} {m : Node}
    (h : zeroDescent n cs m) :
    ∀ {cs2 : List Bool} {m2 : Node}, zeroDescent n cs2 m2 → cs2 = cs ∧ m2 = m := by
  induction h with
  | here n pp hpp =>
    intro cs2 m2 h2
    cases h2 with
    | here => exact ⟨rfl, rfl⟩
    | left _ _ _ _ hp2 => rw [hpp] at hp2; exact absurd hp2 (by simp)
    | right _ _ _ _ hp2 => rw [hpp] at hp2; exact absurd hp2 (by simp)
  | left n c m cs hp h0 hzd ih =>
    intro cs2 m2 h2
    cases h2 with
    | here _ pp hpp => rw [hp] at hpp; exact absurd hpp (by simp)
    | left _ c2 _ cs3 hp2 h02 hzd2 =>
      have hcc : c2 = c := by
        rw [h0] at h02
        simp only [Option.some_inj] at h02
        exact h02.symm
      subst hcc
      rcases ih hzd2 with ⟨hcs, hm⟩
      exact ⟨by rw [hcs], hm⟩
    | right _ _ _ _ _ h02 => rw [h0] at h02; exact absurd h02 (by simp)
  | right n c m cs hp h0 h1 hzd ih =>
    intro cs2 m2 h2
    cases h2 with
    | here _ pp hpp => rw [hp] at hpp; exact absurd hpp (by simp)
    | left _ c2 _ cs3 hp2 h02 => rw [h0] at h02; exact absurd h02 (by simp)
    | right _ c2 _ cs3 hp2 h02 h12 hzd2 =>
      have hcc : c2 = c := by
        rw [h1] at h12
        simp only [Option.some_inj] at h12
        exact h12.symm
      subst hcc
      rcases ih hzd2 with ⟨hcs, hm⟩
      exact ⟨by rw [hcs], hm⟩

theorem seek_good :
    ∀ (bs : List Bool) {r n : Node}, goodNode r = true → seek r bs = some n →
      goodNode n = true ∧ (bs ≠ [] → hasPopIn n = true) := by
  intro bs
  induction bs with
  | nil =>
    intro r n hg h
    rw [seek_nil] at h
    simp only [Option.some_inj] at h
    rw [← h]
    exact ⟨hg, fun hx => absurd rfl hx⟩
  | cons b rest ih =>
    intro r n hg h
    cases hc : r.child b with
    | none => rw [seek_cons_none rest hc] at h; exact absurd h (by simp)
    | some c =>
      rw [seek_cons_some rest hc] at h
      rcases good_child_extract hg hc with ⟨hcp, hcg⟩
      cases rest with
      | nil =>
        rw [seek_nil] at h
        simp only [Option.some_inj] at h
        rw [← h]
        exact ⟨hcg, fun _ => hcp⟩
      | cons b2 rest2 =>
        rcases ih hcg h with ⟨hng, hnp⟩
        exact ⟨hng, fun _ => hnp (by simp)⟩

theorem phaseAL_none_cur (best : Option pop_and_prefix_length) (depth : Nat)
    (bs : List Bool) : phaseAL best none depth bs = (best, none, depth) := by
  cases bs <;> rfl

theorem deepestPop_nil (n : Node) : deepestPop n [] = none := rfl

theorem deepestPop_cons (n : Node) (b : Bool) (bs : List Bool) :
    deepestPop n (b :: bs) =
      match n.child b with
      | none => none
      | some c =>
        match deepestPop c bs with
        | some (pp, k) => some (pp, k + 1)
        | none =>
          match c.pop with
          | some pp => some (pp, 1)
          | none => none := rfl

theorem deepestPop_cons_none {n : Node} {b : Bool} (bs : List Bool)
    (hc : n.child b = none) : deepestPop n (b :: bs) = none := by
  rw [deepestPop_cons, hc]

theorem deepestPop_cons_some {n c : Node} {b : Bool} (bs : List Bool)
    (hc : n.child b = some c) :
    deepestPop n (b :: bs) =
      match deepestPop c bs with
      | some (pp, k) => some (pp, k + 1)
      | none =>
        match c.pop with
        | some pp => some (pp, 1)
        | none => none := by
  rw [deepestPop_cons, hc]

theorem phaseAL_cur (bs : List Bool) :
    ∀ (best : Option pop_and_prefix_length) (n : Node) (depth : Nat),
      (phaseAL best (some n) depth bs).2.1 = seek n bs := by
  induction bs with
  | nil =>
    intro best n depth
    rw [phaseAL_nil, seek_nil]
  | cons b rest ih =>
    intro best n depth
    rw [phaseAL_cons_some]
    cases hc : n.child b with
    | none =>
      rw [phaseAL_none_cur, seek_cons_none rest hc]
    | some c =>
      rw [seek_cons_some rest hc]
      exact ih _ c (depth + 1)

theorem phaseAL_depth (bs : List Bool) :
    ∀ (best : Option pop_and_prefix_length) (n m : Node) (depth : Nat),
      seek n bs = some m →
      (phaseAL best (some n) depth bs).2.2 = depth + bs.length := by
  induction bs with
  | nil =>
    intro best n m depth hseek
    rw [phaseAL_nil]
    simp
  | cons b rest ih =>
    intro best n m depth hseek
    rw [phaseAL_cons_some]
    cases hc : n.child b with
    | none => rw [seek_cons_none rest hc] at hseek; exact absurd hseek (by simp)
    | some c =>
      rw [seek_cons_some rest hc] at hseek
      rw [ih _ c m (depth + 1) hseek]
      simp
      omega

theorem phaseAL_best (bs : List Bool) :
    ∀ (best : Option pop_and_prefix_length) (n : Node) (depth : Nat),
      (phaseAL best (some n) depth bs).1 =
        match deepestPop n bs with
        | some (pp, k) => some { pop := pp, prefix_length := depth + k }
        | none => best := by
  induction bs with
  | nil =>
    intro best n depth
    rw [phaseAL_nil, deepestPop_nil]
  | cons b rest ih =>
    intro best n depth
    rw [phaseAL_cons_some]
    cases hc : n.child b with
    | none =>
      rw [phaseAL_none_cur, deepestPop_cons_none rest hc]
    | some c =>
      rw [deepestPop_cons_some rest hc]
      rw [ih _ c (depth + 1)]
      cases hdc : deepestPop c rest with
      | some pk =>
        rcases pk with ⟨pp, k⟩
        simp only
        have : depth + 1 + k = depth + (k + 1) := by omega
        rw [this]
      | none =>
        simp only
        cases hcp : c.pop <;> simp only

theorem findPath_char (t : routing_trie) (bs : List Bool) :
    findPath t bs =
      match deepestPop t.root bs with
      | some (pp, k) => some { pop := pp, prefix_length := k }
      | none =>
        match seek t.root bs with
        | some n => phaseB n bs.length
        | none => none := by
  unfold findPath
  have hcur := phaseAL_cur bs none t.root 0
  have hbest := phaseAL_best bs none t.root 0
  cases hal : phaseAL none (some t.root) 0 bs with
  | mk bfin rest2 =>
    rcases rest2 with ⟨curfin, dfin⟩
    rw [hal] at hcur hbest
    simp only at hcur hbest
    cases hdp : deepestPop t.root bs with
    | some pk =>
      rcases pk with ⟨pp, k⟩
      rw [hdp] at hbest
      simp only at hbest
      rw [hbest]
      simp only
      have : (0 : Nat) + k = k := by omega
      rw [this]
    | none =>
      rw [hdp] at hbest
      simp only at hbest
      rw [hbest]
      cases hseek : seek t.root bs with
      | none =>
        rw [hseek] at hcur
        rw [hcur]
      | some n =>
        rw [hseek] at hcur
        rw [hcur]
        have hd := phaseAL_depth bs none t.root n 0 hseek
        rw [hal] at hd
        simp only at hd
        rw [hd]
        simp

theorem deepestPop_none_popAt (bs : List Bool) :
    ∀ {n : Node}, deepestPop n bs = none →
      ∀ j, 1 ≤ j → j ≤ bs.length → popAt n (bs.take j) = none := by
  induction bs with
  | nil =>
    intro n h j h1 h2
    simp at h2
    omega
  | cons b rest ih =>
    intro n h j h1 h2
    cases j with
    | zero => omega
    | succ j2 =>
      rw [List.take_succ_cons]
      cases hc : n.child b with
      | none => exact popAt_cons_none _ hc
      | some c =>
        rw [deepestPop_cons_some rest hc] at h
        cases hdc : deepestPop c rest with
        | some pk => rcases pk with ⟨pp, k⟩; rw [hdc] at h; exact absurd h (by simp)
        | none =>
          rw [hdc] at h
          cases hcp : c.pop with
          | some pp => rw [hcp] at h; exact absurd h (by simp)
          | none =>
            rw [popAt_cons_some _ hc]
            cases j2 with
            | zero =>
              rw [List.take_zero, popAt_nil]
              exact hcp
            | succ j3 =>
              apply ih hdc
              · omega
              · simp at h2
                omega

theorem deepestPop_some_popAt (bs : List Bool) :
    ∀ {n : Node} {pp k : Nat}, deepestPop n bs = some (pp, k) →
      1 ≤ k ∧ k ≤ bs.length ∧ popAt n (bs.take k) = some pp ∧
        ∀ j, k < j → j ≤ bs.length → popAt n (bs.take j) = none := by
  induction bs with
  | nil =>
    intro n pp k h
    rw [deepestPop_nil] at h
    exact absurd h (by simp)
  | cons b rest ih =>
    intro n pp k h
    cases hc : n.child b with
    | none => rw [deepestPop_cons_none rest hc] at h; exact absurd h (by simp)
    | some c =>
      rw [deepestPop_cons_some rest hc] at h
      cases hdc : deepestPop c rest with
      | some pk =>
        rcases pk with ⟨pp0, k0⟩
        rw [hdc] at h
        simp only [Option.some_inj, Prod.mk.injEq] at h
        rcases h with ⟨hpp, hk⟩
        subst hpp
        rcases ih hdc with ⟨ih1, ih2, ih3, ih4⟩
        refine ⟨by omega, by simp; omega, ?_, ?_⟩
        · rw [← hk, List.take_succ_cons, popAt_cons_some _ hc]
          exact ih3
        · intro j hj1 hj2
          cases j with
          | zero => omega
          | succ j2 =>
            rw [List.take_succ_cons, popAt_cons_some _ hc]
            apply ih4
            · omega
            · simp at hj2
              omega
      | none =>
        rw [hdc] at h
        cases hcp : c.pop with
        | none => rw [hcp] at h; exact absurd h (by simp)
        | some pp0 =>
          rw [hcp] at h
          simp only [Option.some_inj, Prod.mk.injEq] at h
          rcases h with ⟨hpp, hk⟩
          subst hpp
          refine ⟨by omega, by simp; omega, ?_, ?_⟩
          · rw [← hk, List.take_succ_cons, List.take_zero, popAt_cons_some _ hc, popAt_nil]
            exact hcp
          · intro j hj1 hj2
            cases j with
            | zero => omega
            | succ j2 =>
              rw [List.take_succ_cons, popAt_cons_some _ hc]
              apply deepestPop_none_popAt rest hdc
              · omega
              · simp at hj2
                omega

theorem deepestPop_of_popAt {bs : List Bool} {n : Node} {pp k : Nat}
    (hp : popAt n (bs.take k) = some pp) (h1 : 1 ≤ k) (h2 : k ≤ bs.length)
    (hmax : ∀ j, k < j → j ≤ bs.length → popAt n (bs.take j) = none) :
    deepestPop n bs = some (pp, k) := by
  cases hdp : deepestPop n bs with
  | none =>
    have := deepestPop_none_popAt bs hdp k h1 h2
    rw [this] at hp
    exact absurd hp (by simp)
  | some pk =>
    rcases pk with ⟨pp0, k0⟩
    rcases deepestPop_some_popAt bs hdp with ⟨hd1, hd2, hd3, hd4⟩
    rcases Nat.lt_trichotomy k k0 with hlt | heq | hgt
    · have := hmax k0 hlt hd2
      rw [this] at hd3
      exact absurd hd3 (by simp)
    · subst heq
      rw [hd3] at hp
      simp only [Option.some_inj] at hp
      rw [hp]
    · have := hd4 k hgt h2
      rw [this] at hp
      exact absurd hp (by simp)

theorem insertPath_nil (n : Node) (pp : Nat) :
    insertPath n [] pp =
      match n.pop with
      | some _ => none
      | none => some (n.setPop pp) := rfl

theorem insertPath_cons (n : Node) (b : Bool) (rest : List Bool) (pp : Nat) :
    insertPath n (b :: rest) pp =
      Option.map (fun c2 => n.setChild b c2)
        (insertPath ((n.child b).getD emptyNode) rest pp) := rfl

theorem insertPath_setChild_same (n c : Node) (b : Bool) (rest : List Bool) (p : Nat) :
    insertPath (n.setChild b c) (b :: rest) p =
      Option.map (fun c2 => n.setChild b c2) (insertPath c rest p) := by
  rw [insertPath_cons, child_setChild_same, Option.getD_some]
  congr 1
  funext c2
  exact setChild_setChild_same n b c c2

theorem insertPath_comm_eq (bs : List Bool) (n : Node) (p1 p2 : Nat) :
    Option.bind (insertPath n bs p1) (fun m => insertPath m bs p2) =
      Option.bind (insertPath n bs p2) (fun m => insertPath m bs p1) := by
  have key : ∀ (q1 q2 : Nat),
      Option.bind (insertPath n bs q1) (fun m => insertPath m bs q2) = none := by
    intro q1 q2
    cases h : insertPath n bs q1 with
    | none => rfl
    | some m =>
      show insertPath m bs q2 = none
      rw [insertPath_none_iff]
      have := insertPath_some_popAt h bs
      rw [if_pos rfl] at this
      rw [this]
      rfl
  rw [key p1 p2, key p2 p1]

theorem insertPath_comm_ne :
    ∀ (bs1 bs2 : List Bool) (n : Node) (p1 p2 : Nat), bs1 ≠ bs2 →
      Option.bind (insertPath n bs1 p1) (fun m => insertPath m bs2 p2) =
        Option.bind (insertPath n bs2 p2) (fun m => insertPath m bs1 p1) := by
  have nilCons : ∀ (b2 : Bool) (rest2 : List Bool) (n : Node) (p1 p2 : Nat),
      Option.bind (insertPath n [] p1) (fun m => insertPath m (b2 :: rest2) p2) =
        Option.bind (insertPath n (b2 :: rest2) p2) (fun m => insertPath m [] p1) := by
    intro b2 rest2 n p1 p2
    cases hp : n.pop with
    | some v =>
      rw [insertPath_nil, hp]
      show none = _
      cases hrec : insertPath ((n.child b2).getD emptyNode) rest2 p2 with
      | none => rw [insertPath_cons, hrec]; rfl
      | some c2 =>
        rw [insertPath_cons, hrec]
        show none = insertPath (n.setChild b2 c2) [] p1
        rw [insertPath_nil, pop_setChild, hp]
    | none =>
      rw [insertPath_nil, hp]
      show insertPath (n.setPop p1) (b2 :: rest2) p2 = _
      rw [insertPath_cons, child_setPop]
      cases hrec : insertPath ((n.child b2).getD emptyNode) rest2 p2 with
      | none =>
        rw [insertPath_cons, hrec]
        rfl
      | some c2 =>
        rw [insertPath_cons, hrec]
        show some ((n.setPop p1).setChild b2 c2) = insertPath (n.setChild b2 c2) [] p1
        rw [insertPath_nil, pop_setChild, hp, setPop_setChild]
  intro bs1
  induction bs1 with
  | nil =>
    intro bs2 n p1 p2 hne
    cases bs2 with
    | nil => exact absurd rfl hne
    | cons b2 rest2 => exact nilCons b2 rest2 n p1 p2
  | cons b1 rest1 ih =>
    intro bs2 n p1 p2 hne
    cases bs2 with
    | nil => exact (nilCons b1 rest1 n p2 p1).symm
    | cons b2 rest2 =>
      by_cases hb : b1 = b2
      · subst hb
        have hrests : rest1 ≠ rest2 := by
          intro hx
          exact hne (by rw [hx])
        have hihx := ih rest2 ((n.child b1).getD emptyNode) p1 p2 hrests
        rw [insertPath_cons n b1 rest1 p1, insertPath_cons n b1 rest2 p2]
        cases h1 : insertPath ((n.child b1).getD emptyNode) rest1 p1 with
        | none =>
          rw [h1] at hihx
          simp only [Option.none_bind] at hihx
          cases h2 : insertPath ((n.child b1).getD emptyNode) rest2 p2 with
          | none => rfl
          | some c2 =>
            rw [h2] at hihx
            simp only [Option.some_bind] at hihx
            show none = insertPath (n.setChild b1 c2) (b1 :: rest1) p1
            rw [insertPath_setChild_same, ← hihx]
            rfl
        | some c1 =>
          rw [h1] at hihx
          simp only [Option.some_bind] at hihx
          cases h2 : insertPath ((n.child b1).getD emptyNode) rest2 p2 with
          | none =>
            rw [h2] at hihx
            simp only [Option.none_bind] at hihx
            show insertPath (n.setChild b1 c1) (b1 :: rest2) p2 = none
            rw [insertPath_setChild_same, hihx]
            rfl
          | some c2 =>
            rw [h2] at hihx
            simp only [Option.some_bind] at hihx
            show insertPath (n.setChild b1 c1) (b1 :: rest2) p2 =
              insertPath (n.setChild b1 c2) (b1 :: rest1) p1
            rw [insertPath_setChild_same, insertPath_setChild_same, hihx]
      · rw [insertPath_cons n b1 rest1 p1, insertPath_cons n b2 rest2 p2]
        cases h1 : insertPath ((n.child b1).getD emptyNode) rest1 p1 with
        | none =>
          cases h2 : insertPath ((n.child b2).getD emptyNode) rest2 p2 with
          | none => rfl
          | some c2 =>
            show none = insertPath (n.setChild b2 c2) (b1 :: rest1) p1
            rw [insertPath_cons, child_setChild_other n c2 (fun hx => hb hx.symm), h1]
            rfl
        | some c1 =>
          cases h2 : insertPath ((n.child b2).getD emptyNode) rest2 p2 with
          | none =>
            show insertPath (n.setChild b1 c1) (b2 :: rest2) p2 = none
            rw [insertPath_cons, child_setChild_other n c1 hb, h2]
            rfl
          | some c2 =>
            show insertPath (n.setChild b1 c1) (b2 :: rest2) p2 =
              insertPath (n.setChild b2 c2) (b1 :: rest1) p1
            rw [insertPath_cons, insertPath_cons,
              child_setChild_other n c1 hb, child_setChild_other n c2 (fun hx => hb hx.symm),
              h1, h2]
            simp only [Option.map_some']
            rw [setChild_setChild_comm n c1 c2 hb]

theorem insertPath_comm_all (bs1 bs2 : List Bool) (n : Node) (p1 p2 : Nat) :
    Option.bind (insertPath n bs1 p1) (fun m => insertPath m bs2 p2) =
      Option.bind (insertPath n bs2 p2) (fun m => insertPath m bs1 p1) := by
  by_cases h : bs1 = bs2
  · subst h
    exact insertPath_comm_eq bs1 n p1 p2
  · exact insertPath_comm_ne bs1 bs2 n p1 p2 h

theorem insStep_map_wrap (X : Option Node) (e : prefix_and_pop) :
    insStep (Option.map (fun r => { root := r }) X) e =
      Option.map (fun r => ({ root := r } : routing_trie))
        (Option.bind X (fun r => insertPath r (address_pfx.bits e.pfx) e.pop)) := by
  cases X <;> rfl

theorem insStep_comm (ot : Option routing_trie) (e1 e2 : prefix_and_pop) :
    insStep (insStep ot e1) e2 = insStep (insStep ot e2) e1 := by
  cases ot with
  | none => rfl
  | some t =>
    show insStep (insertPathT t e1) e2 = insStep (insertPathT t e2) e1
    unfold insertPathT
    rw [insStep_map_wrap, insStep_map_wrap, insertPath_comm_all]

theorem foldl_insStep_perm {l1 l2 : List prefix_and_pop} (h : l1.Perm l2) :
    ∀ ot, l1.foldl insStep ot = l2.foldl insStep ot := by
  induction h with
  | nil => intro ot; rfl
  | cons x _ ih =>
    intro ot
    rw [List.foldl_cons, List.foldl_cons]
    exact ih _
  | swap x y l =>
    intro ot
    rw [List.foldl_cons, List.foldl_cons, List.foldl_cons, List.foldl_cons, insStep_comm]
  | trans _ _ ih1 ih2 =>
    intro ot
    rw [ih1, ih2]

theorem buildTrie_perm {l1 l2 : List prefix_and_pop} (h : l1.Perm l2) :
    buildTrie l1 = buildTrie l2 := by
  rw [build_eq_path, build_eq_path]
  exact foldl_insStep_perm h _

theorem stepsA_le (bs : List Bool) : ∀ (cur : Option Node), stepsA cur bs ≤ bs.length := by
  induction bs with
  | nil => intro cur; cases cur <;> simp [stepsA]
  | cons b rest ih =>
    intro cur
    cases cur with
    | none => simp [stepsA]
    | some n =>
      show stepsA (n.child b) rest + 1 ≤ rest.length + 1
      have := ih (n.child b)
      omega

theorem stepsB_pop {n : Node} {pp : Nat} (h : n.pop = some pp) : stepsB n = 0 := by
  cases n with
  | mk p c0 c1 =>
    have hx : p = some pp := h
    subst hx
    rfl

theorem stepsB_left {n c : Node} (hp : n.pop = none) (h0 : n.child0 = some c) :
    stepsB n = stepsB c + 1 := by
  cases n with
  | mk p c0 c1 =>
    have hx : p = none := hp
    subst hx
    have hy : c0 = some c := h0
    subst hy
    rfl

theorem stepsB_right {n c : Node} (hp : n.pop = none) (h0 : n.child0 = none)
    (h1 : n.child1 = some c) : stepsB n = stepsB c + 1 := by
  cases n with
  | mk p c0 c1 =>
    have hx : p = none := hp
    subst hx
    have hy : c0 = none := h0
    subst hy
    have hz : c1 = some c := h1
    subst hz
    rfl

theorem stepsB_le_good_aux :
    ∀ (H : Nat) (n : Node), height n ≤ H → goodNode n = true → hasPopIn n = true →
      stepsB n ≤ height n := by
  intro H
  induction H with
  | zero =>
    intro n hh hg hpop
    cases hp : n.pop with
    | some pp => rw [stepsB_pop hp]; omega
    | none =>
      exfalso
      cases n with
      | mk p c0 c1 =>
        have hx : p = none := hp
        subst hx
        cases c0 with
        | some c =>
          have hlt : height c < height (Node.mk none (some c) c1) :=
            height_child (b := false) rfl
          omega
        | none =>
          cases c1 with
          | some c =>
            have hlt : height c < height (Node.mk none none (some c)) :=
              height_child (b := true) rfl
            omega
          | none => exact absurd hpop (by simp [hasPopIn])
  | succ hh ih =>
    intro n hle hg hpop
    cases hp : n.pop with
    | some pp => rw [stepsB_pop hp]; omega
    | none =>
      cases h0 : n.child0 with
      | some c =>
        have hcc : n.child false = some c := h0
        rcases good_child_extract hg hcc with ⟨hcp, hcg⟩
        have hlt := height_child hcc
        have hch : height c ≤ hh := by omega
        have := ih c hch hcg hcp
        rw [stepsB_left hp h0]
        omega
      | none =>
        cases h1 : n.child1 with
        | some c =>
          have hcc : n.child true = some c := h1
          rcases good_child_extract hg hcc with ⟨hcp, hcg⟩
          have hlt := height_child hcc
          have hch : height c ≤ hh := by omega
          have := ih c hch hcg hcp
          rw [stepsB_right hp h0 h1]
          omega
        | none =>
          exfalso
          cases n with
          | mk p cc0 cc1 =>
            have hx : p = none := hp
            have hy : cc0 = none := h0
            have hz : cc1 = none := h1
            subst hx
            subst hy
            subst hz
            exact absurd hpop (by simp [hasPopIn])

theorem stepsB_le_good {n : Node} (hg : goodNode n = true) (hpop : hasPopIn n = true) :
    stepsB n ≤ height n :=
  stepsB_le_good_aux (height n) n (le_refl _) hg hpop

theorem seek_height (bs : List Bool) :
    ∀ {r n : Node}, seek r bs = some n → height n ≤ height r := by
  induction bs with
  | nil =>
    intro r n h
    rw [seek_nil] at h
    simp only [Option.some_inj] at h
    rw [← h]
  | cons b rest ih =>
    intro r n h
    cases hc : r.child b with
    | none => rw [seek_cons_none rest hc] at h; exact absurd h (by simp)
    | some c =>
      rw [seek_cons_some rest hc] at h
      exact le_trans (ih h) (le_of_lt (height_child hc))

/-- C5: on a cursor with remaining length 0, pop_bit yields none and leaves
the address (the meaningful remaining state) unchanged; on a cursor with
positive remaining length it yields the current most-significant bit
(bit 127), decrements the remaining length by one and left-shifts the
address by one bit modulo 2^128, so that the bit exposed by the next call
(bit 127 of the new address) is bit 126 of the old address. -/
theorem claim_C5 (p : address_pfx) :
    (p.prefix_length = 0 →
      (address_pfx.pop_bit p).1 = none ∧
      ((address_pfx.pop_bit p).2).address = p.address) ∧
    (p.prefix_length ≠ 0 →
      (address_pfx.pop_bit p).1 = some (p.address.testBit 127) ∧
      ((address_pfx.pop_bit p).2).prefix_length = p.prefix_length - 1 ∧
      ((address_pfx.pop_bit p).2).address = (p.address <<< 1) % U128 ∧
      ((address_pfx.pop_bit p).2).address.testBit 127 = p.address.testBit 126) := by
  constructor
  · intro h
    rw [pop_bit_zero h]
    exact ⟨rfl, rfl⟩
  · intro h
    have hl : p.prefix_length = (p.prefix_length - 1) + 1 := by omega
    rw [pop_bit_succ hl]
    refine ⟨rfl, rfl, rfl, ?_⟩
    show ((p.address <<< 1) % U128).testBit 127 = p.address.testBit 126
    rw [U128, Nat.testBit_mod_two_pow, Nat.testBit_shiftLeft]
    simp

theorem claim_C5_witness :
    ((address_pfx.pop_bit { address := 5, prefix_length := 0 }).1 = none ∧
     ((address_pfx.pop_bit { address := 5, prefix_length := 0 }).2).address = 5) ∧
    ((address_pfx.pop_bit { address := 2 ^ 127, prefix_length := 3 }).1 =
       some ((2 ^ 127 : Nat).testBit 127) ∧
     ((address_pfx.pop_bit { address := 2 ^ 127, prefix_length := 3 }).2).prefix_length = 3 - 1 ∧
     ((address_pfx.pop_bit { address := 2 ^ 127, prefix_length := 3 }).2).address =
       ((2 ^ 127 : Nat) <<< 1) % U128 ∧
     ((address_pfx.pop_bit { address := 2 ^ 127, prefix_length := 3 }).2).address.testBit 127 =
       (2 ^ 127 : Nat).testBit 126) :=
  ⟨(claim_C5 { address := 5, prefix_length := 0 }).1 rfl,
   (claim_C5 { address := 2 ^ 127, prefix_length := 3 }).2 (by decide)⟩

/-- C9: cursor exhaustion is not sticky.  pop_bit on a cursor with
remaining length 0 returns none but the post-decrement wraps the 32-bit
length field to 2^32 - 1 while leaving the address unchanged, so a second
pop_bit call on the same cursor produces a bit (bit 127 of the untouched
address) and shifts the address. -/
theorem claim_C9 (p : address_pfx) (h : p.prefix_length = 0) :
    (address_pfx.pop_bit p).1 = none ∧
    ((address_pfx.pop_bit p).2).prefix_length = 2 ^ 32 - 1 ∧
    ((address_pfx.pop_bit p).2).address = p.address ∧
    (address_pfx.pop_bit ((address_pfx.pop_bit p).2)).1 = some (p.address.testBit 127) ∧
    ((address_pfx.pop_bit ((address_pfx.pop_bit p).2)).2).address = (p.address <<< 1) % U128 ∧
    ((address_pfx.pop_bit ((address_pfx.pop_bit p).2)).2).prefix_length = 2 ^ 32 - 2 := by
  rw [pop_bit_zero h]
  have h2 : ({ p with prefix_length := UMAX32 } : address_pfx).prefix_length =
      (2 ^ 32 - 2) + 1 := by
    show UMAX32 = 2 ^ 32 - 2 + 1
    rw [UMAX32]
    omega
  rw [pop_bit_succ h2]
  exact ⟨rfl, by rw [UMAX32], rfl, rfl, rfl, rfl⟩

theorem claim_C9_witness :
    (address_pfx.pop_bit { address := 0, prefix_length := 0 }).1 = none ∧
    ((address_pfx.pop_bit { address := 0, prefix_length := 0 }).2).prefix_length = 2 ^ 32 - 1 ∧
    ((address_pfx.pop_bit { address := 0, prefix_length := 0 }).2).address = 0 ∧
    (address_pfx.pop_bit
      ((address_pfx.pop_bit { address := 0, prefix_length := 0 }).2)).1 =
      some ((0 : Nat).testBit 127) ∧
    ((address_pfx.pop_bit
      ((address_pfx.pop_bit { address := 0, prefix_length := 0 }).2)).2).address =
      ((0 : Nat) <<< 1) % U128 ∧
    ((address_pfx.pop_bit
      ((address_pfx.pop_bit { address := 0, prefix_length := 0 }).2)).2).prefix_length =
      2 ^ 32 - 2 :=
  claim_C9 { address := 0, prefix_length := 0 } rfl

/-- C6: insert walks to the node at the entry's trie position, creating
missing children on the way.  It aborts the load (returns none) exactly
when that node already holds a payload; otherwise it succeeds and sets
exactly that node's payload to the entry's PoP, leaving the payload at
every other position unchanged.  In particular a second insert of the same
prefix into the resulting trie is a fatal load error. -/
theorem claim_C6 (t : routing_trie) (p : address_pfx) (pp : Nat) :
    (routing_trie.insert t { pfx := p, pop := pp } = none ↔
      (popAt t.root (address_pfx.bits p)).isSome) ∧
    (∀ t2, routing_trie.insert t { pfx := p, pop := pp } = some t2 →
      popAt t2.root (address_pfx.bits p) = some pp ∧
      ∀ bs, bs ≠ address_pfx.bits p → popAt t2.root bs = popAt t.root bs) ∧
    (∀ t2 pp2, routing_trie.insert t { pfx := p, pop := pp } = some t2 →
      routing_trie.insert t2 { pfx := p, pop := pp2 } = none) := by
  refine ⟨?_, ?_, ?_⟩
  · rw [insert_eq_path]
    exact insertPathT_none_iff t { pfx := p, pop := pp }
  · intro t2 h
    rw [insert_eq_path] at h
    have hall := insertPathT_some_popAt h
    constructor
    · have := hall (address_pfx.bits p)
      rw [if_pos rfl] at this
      exact this
    · intro bs hbs
      have := hall bs
      rw [if_neg hbs] at this
      exact this
  · intro t2 pp2 h
    rw [insert_eq_path] at h
    have hall := insertPathT_some_popAt h (address_pfx.bits p)
    rw [if_pos rfl] at hall
    rw [insert_eq_path, insertPathT_none_iff]
    rw [hall]
    rfl

theorem claim_C6_witness :
    routing_trie.insert
      { root := Node.mk none (some (Node.mk (some 4) none none)) none }
      { pfx := { address := 0, prefix_length := 1 }, pop := 9 } = none :=
  (claim_C6 emptyTrie { address := 0, prefix_length := 1 } 4).2.2
    { root := Node.mk none (some (Node.mk (some 4) none none)) none } 9
    (by rw [insert_eq_path]; rfl)

/-- C7: the trie is a canonical function of the entry set.  Loading any
two permutations of an entry list (with pairwise distinct trie positions)
produces the same trie, and hence find answers every query identically on
the two results. -/
theorem claim_C7 (l1 l2 : List prefix_and_pop) (hperm : l1.Perm l2)
    (hdist : l1.Pairwise
      (fun a b => address_pfx.bits a.pfx ≠ address_pfx.bits b.pfx)) :
    buildTrie l1 = buildTrie l2 ∧
    ∀ t1 t2 (q : address_pfx), buildTrie l1 = some t1 → buildTrie l2 = some t2 →
      routing_trie.find t1 q = routing_trie.find t2 q := by
  have h := buildTrie_perm hperm
  refine ⟨h, fun t1 t2 q h1 h2 => ?_⟩
  rw [h] at h1
  rw [h1] at h2
  have : t1 = t2 := by
    simp only [Option.some_inj] at h2
    exact h2
  rw [this]

theorem claim_C7_witness :
    buildTrie ([⟨⟨0, 0⟩, 1⟩, ⟨⟨0, 1⟩, 2⟩] : List prefix_and_pop) =
      buildTrie ([⟨⟨0, 1⟩, 2⟩, ⟨⟨0, 0⟩, 1⟩] : List prefix_and_pop) :=
  (claim_C7 ([⟨⟨0, 0⟩, 1⟩, ⟨⟨0, 1⟩, 2⟩] : List prefix_and_pop)
    ([⟨⟨0, 1⟩, 2⟩, ⟨⟨0, 0⟩, 1⟩] : List prefix_and_pop)
    (List.Perm.swap (⟨⟨0, 1⟩, 2⟩ : prefix_and_pop) (⟨⟨0, 0⟩, 1⟩ : prefix_and_pop) [])
    (by decide)).1

/-- C4: exact match precedence.  On a successfully loaded table, querying
find with exactly the prefix of a table entry returns that entry's PoP
with matched_length equal to the entry's own prefix length; the length-0
entry, stored at the root, is returned through the Phase-B check at
depth 0. -/
theorem claim_C4 (es : List prefix_and_pop) (t : routing_trie) (e : prefix_and_pop)
    (hb : buildTrie es = some t) (he : e ∈ es) :
    routing_trie.find t e.pfx =
      some { pop := e.pop, prefix_length := e.pfx.prefix_length } := by
  have hpop := buildTrie_mem_popAt hb he
  have hlen := bits_length e.pfx
  rw [find_eq_path, findPath_char]
  cases hq : address_pfx.bits e.pfx with
  | nil =>
    rw [hq] at hpop hlen
    rw [popAt_nil] at hpop
    show phaseB t.root 0 = some { pop := e.pop, prefix_length := e.pfx.prefix_length }
    rw [phaseB_pop hpop 0]
    simp at hlen
    rw [← hlen]
  | cons b rest =>
    rw [hq] at hpop hlen
    have hdp : deepestPop t.root (b :: rest) = some (e.pop, (b :: rest).length) := by
      apply deepestPop_of_popAt
      · rw [List.take_length]
        exact hpop
      · simp
      · exact le_refl _
      · intro j hj1 hj2
        omega
    rw [hdp]
    show some ({ pop := e.pop, prefix_length := (b :: rest).length } :
      pop_and_prefix_length) = _
    rw [hlen]

theorem claim_C4_witness :
    routing_trie.find { root := Node.mk (some 7) none none }
      { address := 0, prefix_length := 0 } =
      some { pop := 7, prefix_length := 0 } :=
  claim_C4 [⟨⟨0, 0⟩, 7⟩] { root := Node.mk (some 7) none none } ⟨⟨0, 0⟩, 7⟩
    (by rw [build_eq_path]; rfl) (by decide)

/-- C3 counterexample: the claim fails when a third, deeper entry lies on
the query's path.  Table {0/1 -> 1, 00/2 -> 2, 000/3 -> 3} with query
000/3: entry 0/1 is a strict prefix of entry 00/2 and both are prefixes of
the query, yet find returns PoP 3 at matched_length 3 (the deepest entry),
not PoP 2. -/
theorem claim_C3_counterexample :
    (buildTrie ([⟨⟨0, 1⟩, 1⟩, ⟨⟨0, 2⟩, 2⟩, ⟨⟨0, 3⟩, 3⟩] : List prefix_and_pop)).map
        (fun t => routing_trie.find t { address := 0, prefix_length := 3 }) =
      some (some { pop := 3, prefix_length := 3 }) ∧
    address_pfx.bits ⟨0, 1⟩ = (address_pfx.bits ⟨0, 2⟩).take 1 ∧
    address_pfx.bits ⟨0, 1⟩ ≠ address_pfx.bits ⟨0, 2⟩ ∧
    address_pfx.bits ⟨0, 2⟩ = (address_pfx.bits ⟨0, 3⟩).take 2 ∧
    some (some ({ pop := 3, prefix_length := 3 } : pop_and_prefix_length)) ≠
      some (some ({ pop := 2, prefix_length := 2 } : pop_and_prefix_length)) := by
  refine ⟨?_, by decide, by decide, by decide, by decide⟩
  simp only [find_eq_path]
  rw [build_eq_path]
  rfl

/-- C3 amended: in the presence of further entries, find reports the
deepest entry on the query's path.  Under the claim's hypotheses (P1 a
strict prefix of P2, both prefixes of Q, all in the table) strengthened by
the condition that no table entry deeper than P2 lies on Q's bit path,
find(Q) returns exactly P2's PoP with matched_length = length(P2) (so in
particular never P1's shallower pair). -/
theorem claim_C3_amended (es : List prefix_and_pop) (t : routing_trie)
    (e1 e2 : prefix_and_pop) (q : address_pfx)
    (hb : buildTrie es = some t) (he1 : e1 ∈ es) (he2 : e2 ∈ es)
    (h12take : address_pfx.bits e1.pfx =
      (address_pfx.bits e2.pfx).take (address_pfx.bits e1.pfx).length)
    (h12lt : (address_pfx.bits e1.pfx).length < (address_pfx.bits e2.pfx).length)
    (h2qtake : address_pfx.bits e2.pfx =
      (address_pfx.bits q).take (address_pfx.bits e2.pfx).length)
    (h2qle : (address_pfx.bits e2.pfx).length ≤ (address_pfx.bits q).length)
    (hdeep : ∀ e3 ∈ es,
      (address_pfx.bits e3.pfx =
        (address_pfx.bits q).take (address_pfx.bits e3.pfx).length ∧
       (address_pfx.bits e3.pfx).length ≤ (address_pfx.bits q).length) →
      (address_pfx.bits e3.pfx).length ≤ (address_pfx.bits e2.pfx).length) :
    routing_trie.find t q =
      some { pop := e2.pop, prefix_length := e2.pfx.prefix_length } := by
  have hpop2 := buildTrie_mem_popAt hb he2
  have hlen2 := bits_length e2.pfx
  have hk1 : 1 ≤ (address_pfx.bits e2.pfx).length := by omega
  have hdp : deepestPop t.root (address_pfx.bits q) =
      some (e2.pop, (address_pfx.bits e2.pfx).length) := by
    apply deepestPop_of_popAt
    · rw [← h2qtake]
      exact hpop2
    · exact hk1
    · exact h2qle
    · intro j hj1 hj2
      cases hpj : popAt t.root ((address_pfx.bits q).take j) with
      | none => rfl
      | some v =>
        exfalso
        rcases buildTrie_popAt_inv hb hpj with ⟨e3, he3, hbits3, hpop3⟩
        have hlen3 : (address_pfx.bits e3.pfx).length = j := by
          rw [hbits3, List.length_take]
          omega
        have := hdeep e3 he3 ⟨by rw [hlen3]; exact hbits3, by omega⟩
        omega
  rw [find_eq_path, findPath_char, hdp]
  show some ({ pop := e2.pop, prefix_length := (address_pfx.bits e2.pfx).length } :
    pop_and_prefix_length) = _
  rw [hlen2]

theorem claim_C3_witness :
    routing_trie.find
      { root := Node.mk none
          (some (Node.mk (some 1) (some (Node.mk (some 2) none none)) none)) none }
      { address := 0, prefix_length := 3 } =
      some { pop := 2, prefix_length := 2 } :=
  claim_C3_amended [⟨⟨0, 1⟩, 1⟩, ⟨⟨0, 2⟩, 2⟩]
    { root := Node.mk none
        (some (Node.mk (some 1) (some (Node.mk (some 2) none none)) none)) none }
    ⟨⟨0, 1⟩, 1⟩ ⟨⟨0, 2⟩, 2⟩ ⟨0, 3⟩
    (by rw [build_eq_path]; rfl) (by decide) (by decide)
    (by decide) (by decide) (by decide) (by decide) (by decide)

/-- C1 counterexample: on the empty routing table, the length-0 query
lands on the existing root with nothing recorded, Phase B runs off the
childless root, and find returns "no entry" — although the Phase-A walk of
the query's bits (there are none) never reaches an absent child (it ends
on the existing root).  So "no entry" does not happen exactly when the
Phase-A walk reaches an absent child with no payload recorded. -/
theorem claim_C1_counterexample :
    buildTrie [] = some { root := emptyNode } ∧
    routing_trie.find { root := emptyNode } { address := 0, prefix_length := 0 } = none ∧
    address_pfx.bits { address := 0, prefix_length := 0 } = [] ∧
    seek emptyNode (address_pfx.bits { address := 0, prefix_length := 0 }) =
      some emptyNode := by
  refine ⟨rfl, ?_, rfl, rfl⟩
  rw [find_eq_path]
  rfl

/-- C1 amended: for every routing table with at least one entry, find
returns "no entry" exactly when the Phase-A walk of the query's bits runs
off the trie (the full query path has no node) with no payload recorded at
any walked depth; in particular the payload of a /0 entry, stored at the
root, is never recorded during Phase A, so a diverging query returns
"no entry" even when a /0 default route is present. -/
theorem claim_C1_amended (es : List prefix_and_pop) (t : routing_trie)
    (hb : buildTrie es = some t) (hne : es ≠ []) (q : address_pfx) :
    routing_trie.find t q = none ↔
      (seek t.root (address_pfx.bits q) = none ∧
       ∀ d, 1 ≤ d → d ≤ (address_pfx.bits q).length →
         popAt t.root ((address_pfx.bits q).take d) = none) := by
  rw [find_eq_path, findPath_char]
  rcases List.exists_mem_of_ne_nil es hne with ⟨e0, he0⟩
  have hroot_pop : hasPopIn t.root = true :=
    popAt_some_hasPopIn (buildTrie_mem_popAt hb he0)
  have hroot_good : goodNode t.root = true := buildTrie_good hb
  constructor
  · intro h
    cases hdp : deepestPop t.root (address_pfx.bits q) with
    | some pk =>
      rcases pk with ⟨pp, k⟩
      rw [hdp] at h
      exact absurd h (by simp)
    | none =>
      rw [hdp] at h
      refine ⟨?_, deepestPop_none_popAt _ hdp⟩
      cases hseek : seek t.root (address_pfx.bits q) with
      | none => rfl
      | some n =>
        exfalso
        rw [hseek] at h
        have hgoodn : goodNode n = true ∧ hasPopIn n = true := by
          cases hq : address_pfx.bits q with
          | nil =>
            rw [hq, seek_nil] at hseek
            simp only [Option.some_inj] at hseek
            rw [← hseek]
            exact ⟨hroot_good, hroot_pop⟩
          | cons b rest =>
            rw [hq] at hseek
            have := seek_good (b :: rest) hroot_good hseek
            exact ⟨this.1, this.2 (by simp)⟩
        rcases phaseB_some_of_good hgoodn.1 hgoodn.2 (address_pfx.bits q).length with ⟨r, hr⟩
        have h2 : phaseB n (address_pfx.bits q).length = none := h
        rw [hr] at h2
        exact absurd h2 (by simp)
  · intro hcond
    rcases hcond with ⟨hseek, hpops⟩
    cases hdp : deepestPop t.root (address_pfx.bits q) with
    | some pk =>
      rcases pk with ⟨pp, k⟩
      exfalso
      rcases deepestPop_some_popAt _ hdp with ⟨hk1, hk2, hk3, _⟩
      rw [hpops k hk1 hk2] at hk3
      exact absurd hk3 (by simp)
    | none =>
      rw [hseek]

theorem claim_C1_witness :
    routing_trie.find
      { root := Node.mk (some 9) (some (Node.mk (some 5) none none)) none }
      { address := 2 ^ 127, prefix_length := 1 } = none := by
  apply (claim_C1_amended [⟨⟨0, 0⟩, 9⟩, ⟨⟨0, 1⟩, 5⟩]
    { root := Node.mk (some 9) (some (Node.mk (some 5) none none)) none }
    (by rw [build_eq_path]; rfl) (by simp)
    { address := 2 ^ 127, prefix_length := 1 }).mpr
  constructor
  · rfl
  · intro d h1 h2
    have hlen : (address_pfx.bits
        ({ address := 2 ^ 127, prefix_length := 1 } : address_pfx)).length = 1 := rfl
    rw [hlen] at h2
    have hd : d = 1 := by omega
    subst hd
    rfl

/-- C2 counterexample: on the empty routing table, the length-0 query's
full (empty) bit path lands on the existing root with no payload recorded
during Phase A, yet find returns "no entry" rather than the payload of a
descendant entry — no descent to a payload exists, so the claimed fallback
result does not. -/
theorem claim_C2_counterexample :
    buildTrie [] = some { root := emptyNode } ∧
    seek emptyNode (address_pfx.bits { address := 0, prefix_length := 0 }) =
      some emptyNode ∧
    (address_pfx.bits { address := 0, prefix_length := 0 }).length = 0 ∧
    routing_trie.find { root := emptyNode } { address := 0, prefix_length := 0 } = none := by
  refine ⟨rfl, rfl, rfl, ?_⟩
  rw [find_eq_path]
  rfl

/-- C2 amended: for every routing table with at least one entry, when the
query's full bit path lands on an existing node with no payload recorded
during Phase A, find returns the payload of the unique entry reached from
that node by repeatedly descending into the 0-child when it exists and
otherwise the 1-child, stopping at the first payload; the reported
matched_length is that entry's own prefix length (the depth at which the
payload was found), not the query's length. -/
theorem claim_C2_amended (es : List prefix_and_pop) (t : routing_trie) (n : Node)
    (q : address_pfx) (hb : buildTrie es = some t) (hne : es ≠ [])
    (hseek : seek t.root (address_pfx.bits q) = some n)
    (hnopop : ∀ d, 1 ≤ d → d ≤ (address_pfx.bits q).length →
      popAt t.root ((address_pfx.bits q).take d) = none) :
    ∃ cs m, zeroDescent n cs m ∧
      (∀ cs2 m2, zeroDescent n cs2 m2 → cs2 = cs ∧ m2 = m) ∧
      ∃ e, e ∈ es ∧ address_pfx.bits e.pfx = address_pfx.bits q ++ cs ∧
        routing_trie.find t q = some { pop := e.pop, prefix_length := e.pfx.prefix_length } ∧
        e.pfx.prefix_length = (address_pfx.bits q).length + cs.length := by
  rcases List.exists_mem_of_ne_nil es hne with ⟨e0, he0⟩
  have hroot_pop : hasPopIn t.root = true :=
    popAt_some_hasPopIn (buildTrie_mem_popAt hb he0)
  have hroot_good : goodNode t.root = true := buildTrie_good hb
  have hgoodn : goodNode n = true ∧ hasPopIn n = true := by
    cases hq : address_pfx.bits q with
    | nil =>
      rw [hq, seek_nil] at hseek
      simp only [Option.some_inj] at hseek
      rw [← hseek]
      exact ⟨hroot_good, hroot_pop⟩
    | cons b rest =>
      rw [hq] at hseek
      have := seek_good (b :: rest) hroot_good hseek
      exact ⟨this.1, this.2 (by simp)⟩
  have hdp : deepestPop t.root (address_pfx.bits q) = none := by
    cases hdp2 : deepestPop t.root (address_pfx.bits q) with
    | none => rfl
    | some pk =>
      rcases pk with ⟨pp, k⟩
      exfalso
      rcases deepestPop_some_popAt _ hdp2 with ⟨hk1, hk2, hk3, _⟩
      rw [hnopop k hk1 hk2] at hk3
      exact absurd hk3 (by simp)
  have hfind : routing_trie.find t q = phaseB n (address_pfx.bits q).length := by
    rw [find_eq_path, findPath_char, hdp, hseek]
  rcases phaseB_some_of_good hgoodn.1 hgoodn.2 (address_pfx.bits q).length with ⟨r, hr⟩
  rcases phaseB_zeroDescent hr with ⟨cs, m, hzd, hseekcs, hmpop, hrlen⟩
  refine ⟨cs, m, hzd, fun cs2 m2 h2 => zeroDescent_unique hzd h2, ?_⟩
  have hpopfull : popAt t.root (address_pfx.bits q ++ cs) = some r.pop := by
    unfold popAt
    rw [seek_append, hseek]
    simp only [Option.some_bind]
    rw [hseekcs]
    exact hmpop
  rcases buildTrie_popAt_inv hb hpopfull with ⟨e, he, hbits, hpop⟩
  refine ⟨e, he, hbits, ?_, ?_⟩
  · rw [hfind, hr]
    have hplen : e.pfx.prefix_length = r.prefix_length := by
      rw [← bits_length e.pfx, hbits]
      simp
      omega
    rw [hplen, hpop]
  · rw [← bits_length e.pfx, hbits]
    simp

theorem claim_C2_witness :
    ∃ cs m,
      zeroDescent
        (Node.mk none (some (Node.mk (some 5) none none))
          (some (Node.mk (some 6) none none))) cs m ∧
      (∀ cs2 m2, zeroDescent
        (Node.mk none (some (Node.mk (some 5) none none))
          (some (Node.mk (some 6) none none))) cs2 m2 → cs2 = cs ∧ m2 = m) ∧
      ∃ e, e ∈ ([⟨⟨0, 2⟩, 5⟩, ⟨⟨2 ^ 126, 2⟩, 6⟩] : List prefix_and_pop) ∧
        address_pfx.bits e.pfx =
          address_pfx.bits ({ address := 0, prefix_length := 1 } : address_pfx) ++ cs ∧
        routing_trie.find
          { root := Node.mk none
              (some (Node.mk none (some (Node.mk (some 5) none none))
                (some (Node.mk (some 6) none none)))) none }
          { address := 0, prefix_length := 1 } =
          some { pop := e.pop, prefix_length := e.pfx.prefix_length } ∧
        e.pfx.prefix_length =
          (address_pfx.bits ({ address := 0, prefix_length := 1 } : address_pfx)).length +
            cs.length := by
  apply claim_C2_amended [⟨⟨0, 2⟩, 5⟩, ⟨⟨2 ^ 126, 2⟩, 6⟩]
    { root := Node.mk none
        (some (Node.mk none (some (Node.mk (some 5) none none))
          (some (Node.mk (some 6) none none)))) none }
    (Node.mk none (some (Node.mk (some 5) none none)) (some (Node.mk (some 6) none none)))
    { address := 0, prefix_length := 1 }
    (by rw [build_eq_path]; rfl) (by simp) rfl
  intro d h1 h2
  have hlen : (address_pfx.bits
      ({ address := 0, prefix_length := 1 } : address_pfx)).length = 1 := rfl
  rw [hlen] at h2
  have hd : d = 1 := by omega
  subst hd
  rfl

/-- C10: after a successful load, every node reachable by a nonempty bit
path from the root has a payload in its own subtree (the structural
invariant goodNode of the root), so whenever find enters the Phase-B
descent at an existing node reached by a nonempty path, the descent always
finds a payload and never yields "no entry". -/
theorem claim_C10 (es : List prefix_and_pop) (t : routing_trie)
    (hb : buildTrie es = some t) :
    goodNode t.root = true ∧
    (∀ bs n, seek t.root bs = some n → bs ≠ [] → hasPopIn n = true) ∧
    (∀ bs n d, seek t.root bs = some n → bs ≠ [] → phaseB n d ≠ none) := by
  have hg : goodNode t.root = true := buildTrie_good hb
  have hmem : ∀ bs n, seek t.root bs = some n → bs ≠ [] →
      goodNode n = true ∧ hasPopIn n = true := by
    intro bs n hseek hbs
    cases bs with
    | nil => exact absurd rfl hbs
    | cons b rest =>
      have := seek_good (b :: rest) hg hseek
      exact ⟨this.1, this.2 (by simp)⟩
  refine ⟨hg, fun bs n hseek hbs => (hmem bs n hseek hbs).2, ?_⟩
  intro bs n d hseek hbs
  rcases hmem bs n hseek hbs with ⟨hgn, hpn⟩
  rcases phaseB_some_of_good hgn hpn d with ⟨r, hr⟩
  rw [hr]
  simp

theorem claim_C10_witness :
    goodNode (Node.mk none (some (Node.mk (some 4) none none)) none) = true ∧
    hasPopIn (Node.mk (some 4) none none) = true ∧
    phaseB (Node.mk (some 4) none none) 1 ≠ none := by
  have h := claim_C10 [⟨⟨0, 1⟩, 4⟩]
    { root := Node.mk none (some (Node.mk (some 4) none none)) none }
    (by rw [build_eq_path]; rfl)
  exact ⟨h.1, h.2.1 [false] (Node.mk (some 4) none none) rfl (by simp),
    h.2.2 [false] (Node.mk (some 4) none none) 1 rfl (by simp)⟩

/-- C8: on a table whose entries all have length at most 128 and any query
of length at most 128, find is total (it yields a result or "no entry" and
nothing else) and performs at most length(Q) + 128 node transitions: the
Phase-A loop body runs at most length(Q) times and the Phase-B descent
makes at most 128 moves, since the trie's height is bounded by the longest
inserted prefix. -/
theorem claim_C8 (es : List prefix_and_pop) (t : routing_trie) (q : address_pfx)
    (hb : buildTrie es = some t) (hlen : ∀ e ∈ es, e.pfx.prefix_length ≤ 128)
    (hq : q.prefix_length ≤ 128) :
    ((∃ r, routing_trie.find t q = some r) ∨ routing_trie.find t q = none) ∧
    findTransitions t q ≤ q.prefix_length + 128 := by
  constructor
  · cases routing_trie.find t q with
    | none => exact Or.inr rfl
    | some r => exact Or.inl ⟨r, rfl⟩
  · have hA : stepsA (some t.root) (address_pfx.bits q) ≤ q.prefix_length := by
      have := stepsA_le (address_pfx.bits q) (some t.root)
      rw [bits_length] at this
      exact this
    have hcur := phaseAL_cur (address_pfx.bits q) none t.root 0
    unfold findTransitions
    rw [phaseA_eq_path q.prefix_length q rfl]
    split
    · rename_i n d heq
      rw [heq] at hcur
      simp only at hcur
      have hseek : seek t.root (address_pfx.bits q) = some n := hcur.symm
      have hstepsB : stepsB n ≤ 128 := by
        cases hes : es with
        | nil =>
          subst hes
          have ht : t = emptyTrie := by
            have : buildTrie ([] : List prefix_and_pop) = some emptyTrie := rfl
            rw [this] at hb
            simp only [Option.some_inj] at hb
            exact hb.symm
          subst ht
          have hn : n = emptyNode := by
            cases hqb : address_pfx.bits q with
            | nil =>
              rw [hqb, seek_nil] at hseek
              simp only [Option.some_inj] at hseek
              exact hseek.symm
            | cons b rest =>
              rw [hqb, seek_cons_none rest (by cases b <;> rfl)] at hseek
              exact absurd hseek (by simp)
          subst hn
          have : stepsB emptyNode = 1 := rfl
          omega
        | cons e0 rest0 =>
          have hne : es ≠ [] := by rw [hes]; simp
          rcases List.exists_mem_of_ne_nil es hne with ⟨em, hem⟩
          have hroot_pop : hasPopIn t.root = true :=
            popAt_some_hasPopIn (buildTrie_mem_popAt hb hem)
          have hroot_good : goodNode t.root = true := buildTrie_good hb
          have hgoodn : goodNode n = true ∧ hasPopIn n = true := by
            cases hqb : address_pfx.bits q with
            | nil =>
              rw [hqb, seek_nil] at hseek
              simp only [Option.some_inj] at hseek
              rw [← hseek]
              exact ⟨hroot_good, hroot_pop⟩
            | cons b rest =>
              rw [hqb] at hseek
              have := seek_good (b :: rest) hroot_good hseek
              exact ⟨this.1, this.2 (by simp)⟩
          have h1 : stepsB n ≤ height n := stepsB_le_good hgoodn.1 hgoodn.2
          have h2 : height n ≤ height t.root := seek_height _ hseek
          have h3 : height t.root ≤ 128 := buildTrie_height hb hlen
          omega
      omega
    · omega

theorem claim_C8_witness :
    ((∃ r, routing_trie.find
        { root := Node.mk none (some (Node.mk (some 4) none none)) none }
        { address := 0, prefix_length := 1 } = some r) ∨
      routing_trie.find
        { root := Node.mk none (some (Node.mk (some 4) none none)) none }
        { address := 0, prefix_length := 1 } = none) ∧
    findTransitions
      { root := Node.mk none (some (Node.mk (some 4) none none)) none }
      { address := 0, prefix_length := 1 } ≤ 1 + 128 :=
  claim_C8 [⟨⟨0, 1⟩, 4⟩]
    { root := Node.mk none (some (Node.mk (some 4) none none)) none }
    { address := 0, prefix_length := 1 }
    (by rw [build_eq_path]; rfl) (by decide) (by decide)
